import Mathlib

/-!
Verification of the gpt-cli core subsystems against their natural-language
specification.

The development shallowly embeds, over `List Char`:
  * `parse_args` from `src/gptcli/cli.py` (delimiter-aware argument parsing),
  * `StreamingMarkdownPrinter._render_partial_markdown` from `src/gptcli/cli.py`,
  * `OpenAICompletionProvider.complete` (streaming event normalization) and
    `gpt_pricing` from `src/gptcli/providers/openai.py`.

Recursions that consume a data-dependent number of characters are written with
an explicit fuel argument (initialised to the input length, which is always
sufficient) so that every definition is structurally recursive and evaluates
by kernel reduction; step-equation lemmas recover the natural unfolding.
-/

namespace GptCli

/-- The backtick character, written numerically. -/
def tickChar : Char := Char.ofNat 96

/-- The single-quote character, written numerically. -/
def squoteChar : Char := Char.ofNat 39

/-- Python `\s` on ASCII text: space, tab, newline, carriage return,
vertical tab, form feed. -/
def pySpace (c : Char) : Bool :=
  c = ' ' || c = '\t' || c = '\n' || c = '\r' || c = Char.ofNat 11 || c = Char.ofNat 12

/-- Python `\w` on ASCII text: `[A-Za-z0-9_]`. -/
def isWordChar (c : Char) : Bool :=
  c.isAlpha || c.isDigit || c = '_'

/-- Python `str.strip()`: remove leading and trailing whitespace. -/
def pyStrip (s : List Char) : List Char :=
  ((s.dropWhile pySpace).reverse.dropWhile pySpace).reverse

/-- Python `str.strip(chars)`: remove leading and trailing characters
belonging to `cs`. -/
def pyStripChars (cs : List Char) (s : List Char) : List Char :=
  ((s.dropWhile (· ∈ cs)).reverse.dropWhile (· ∈ cs)).reverse

/-- The character set `"\"'"` used by `value.strip("\"'")` in `parse_args`. -/
def quoteChars : List Char := ['"', squoteChar]

/-- `swL p s`: `s` starts with `p` (used for Python `str.startswith` and for
literal regex fragments). -/
def swL : List Char → List Char → Bool
  | [], _ => true
  | _ :: _, [] => false
  | p :: ps, c :: cs => p == c && swL ps cs

/-! ### Delimiter extraction (`parse_args`, first pass)

The Python code builds the regex
`` ```(.*?)```|\"\"\"(.*?)\"\"\"|`(.*?)` `` (with `DOTALL`) and substitutes
every match with a positional placeholder.  `re.sub` scans left to right; at
each position the three alternatives are tried in order, each with a
non-greedy (shortest) body ending at the next occurrence of the same
delimiter. -/

/-- The three delimiter kinds, in the priority order of the Python
`delimiters` list. -/
inductive Delim where
  | fence
  | quote
  | tick
deriving DecidableEq, Repr

/-- The literal text of each delimiter. -/
def delimStr : Delim → List Char
  | .fence => [tickChar, tickChar, tickChar]
  | .quote => ['"', '"', '"']
  | .tick => [tickChar]

/-- Find the earliest occurrence of the closing delimiter `d` in `s`,
returning the (non-greedy) body before it and the remainder after it. -/
def findClose (d : List Char) : List Char → Option (List Char × List Char)
  | [] => none
  | c :: cs =>
    if swL d (c :: cs) then some ([], (c :: cs).drop d.length)
    else
      match findClose d cs with
      | some (pre, rest) => some (c :: pre, rest)
      | none => none

/-- Try the delimiters of `ds` in order at the current position: each one
matches when it is a literal prefix and its closing occurrence exists. -/
def tryDelims : List Delim → List Char → Option (Delim × List Char × List Char)
  | [], _ => none
  | d :: ds, s =>
    if swL (delimStr d) s then
      match findClose (delimStr d) (s.drop (delimStr d).length) with
      | some (content, rest) => some (d, content, rest)
      | none => tryDelims ds s
    else tryDelims ds s

/-- One regex-alternation attempt at the current position, in the fixed
priority order fence, triple-quote, backtick. -/
def tryOpen (s : List Char) : Option (Delim × List Char × List Char) :=
  tryDelims [Delim.fence, Delim.quote, Delim.tick] s

/-- The positional placeholder `__EXTRACTED_PART_i__`. -/
def placeholder (i : Nat) : List Char :=
  "__EXTRACTED_PART_".data ++ Nat.toDigits 10 i ++ "__".data

/-- Fueled scanner for the delimiter-extraction pass: walks the input left to
right, substituting each matched span with its placeholder and recording
`(content, delimiter)` pairs in order of appearance.  Fuel is always at least
the input length, so the fuel-exhausted clause is unreachable. -/
def scanGo : Nat → Nat → List Char → List Char × List (List Char × Delim)
  | 0, _, s => (s, [])
  | _ + 1, _, [] => ([], [])
  | fuel + 1, k, c :: cs =>
    match tryOpen (c :: cs) with
    | some (d, content, rest) =>
      let p := scanGo fuel (k + 1) rest
      (placeholder k ++ p.1, (content, d) :: p.2)
    | none =>
      let p := scanGo fuel k cs
      (c :: p.1, p.2)

/-- The delimiter-extraction pass of `parse_args`: returns the
placeholder-substituted text and the extracted `(content, delimiter)` list,
numbering placeholders from `k`. -/
def scanSpans (s : List Char) (k : Nat) : List Char × List (List Char × Delim) :=
  scanGo s.length k s

/-- The character whose next occurrence closes a span of kind `d`. -/
def keyChar : Delim → Char
  | .quote => '"'
  | _ => tickChar

/-! ### Flag parsing (`parse_args`, second pass)

On the placeholder-substituted text the Python code runs
`re.findall(r"--(\w+)(?:=(\S+)|\s+(\S+))?", input)` and, when matches exist,
`re.sub(regex, "", input).strip()`.  `flagScan` computes both results in one
left-to-right, non-overlapping scan. -/

/-- Greedy nonempty `takeWhile`: the `+`-quantified character classes of the
flag regex.  Returns the (maximal, nonempty) matched run and the remainder,
or `none` when the first character does not match. -/
def takeWhile1 (p : Char → Bool) (s : List Char) : Option (List Char × List Char) :=
  if s.takeWhile p = [] then none else some (s.takeWhile p, s.dropWhile p)

/-- The optional value part `(?:=(\S+)|\s+(\S+))?` of the flag regex, tried
after the flag name, on remainder `s1`.  Returns the captured value and the
rest after the whole match; `(none, s1)` means the optional group matched
empty.  The `=` alternative is tried first; each `+` is greedy, and since
`\s` and `\S` are disjoint classes no backtracking can change the outcome. -/
def flagValuePart (s1 : List Char) : Option (List Char) × List Char :=
  match s1 with
  | [] => (none, [])
  | c0 :: s2 =>
    if c0 = '=' then
      match takeWhile1 (fun c => !(pySpace c)) s2 with
      | some (v, s3) => (some v, s3)
      | none => (none, c0 :: s2)
    else
      match takeWhile1 pySpace (c0 :: s2) with
      | some (_, s2w) =>
        match takeWhile1 (fun c => !(pySpace c)) s2w with
        | some (v, s3) => (some v, s3)
        | none => (none, c0 :: s2)
      | none => (none, c0 :: s2)

/-- A single attempt of the flag regex `--(\w+)(?:=(\S+)|\s+(\S+))?` at the
current position.  Returns `((name, value), rest)`, the value being `[]` when
the optional group is absent (Python collapses it to `""`). -/
def flagMatchAt : List Char → Option ((List Char × List Char) × List Char)
  | c1 :: c2 :: s =>
    if c1 = '-' ∧ c2 = '-' then
      match takeWhile1 isWordChar s with
      | none => none
      | some (name, s1) =>
        match flagValuePart s1 with
        | (some v, rest) => some ((name, v), rest)
        | (none, rest) => some ((name, []), rest)
    else none
  | _ => none

/-- Fueled scanner combining `re.findall` and `re.sub(regex, "", ...)` for
the flag regex: returns the list of `(name, rawValue)` matches in order and
the input with the matched substrings removed. -/
def flagGo : Nat → List Char → List (List Char × List Char) × List Char
  | 0, s => ([], s)
  | _ + 1, [] => ([], [])
  | fuel + 1, c :: cs =>
    match flagMatchAt (c :: cs) with
    | some (kv, rest) =>
      let p := flagGo fuel rest
      (kv :: p.1, p.2)
    | none =>
      let p := flagGo fuel cs
      (p.1, c :: p.2)

/-- Left-to-right, non-overlapping scan for flag matches, as performed by
both `re.findall` and `re.sub` in `parse_args`. -/
def flagScan (s : List Char) : List (List Char × List Char) × List Char :=
  flagGo s.length s

/-! ### Placeholder restoration (`parse_args`, third pass)

Python's `input.replace(placeholder, restoredSpan)`: replace every
(leftmost, non-overlapping) occurrence; the replacement text is not
rescanned. -/

/-- Fueled scanner for `str.replace`. -/
def replGo : Nat → List Char → List Char → List Char → List Char
  | 0, s, _, _ => s
  | _ + 1, [], _, _ => []
  | fuel + 1, c :: cs, p, r =>
    if swL p (c :: cs) then r ++ replGo fuel ((c :: cs).drop p.length) p r
    else c :: replGo fuel cs p r

/-- Python `s.replace(p, r)` for nonempty `p` (the only way `parse_args`
uses it). -/
def replaceAll (s p r : List Char) : List Char :=
  match p with
  | [] => s
  | _ :: _ => replGo s.length s p r

/-! ### `parse_args` itself -/

/-- Python's `args[key] = value`: replace the binding when `key` is present,
otherwise append it. -/
def setArg (m : List (List Char × List Char)) (k v : List Char) :
    List (List Char × List Char) :=
  if m.any (fun p => p.1 == k) then
    m.map (fun p => if p.1 == k then (k, v) else p)
  else m ++ [(k, v)]

/-- Dictionary lookup in the option map. -/
def lookupArg (m : List (List Char × List Char)) (k : List Char) :
    Option (List Char) :=
  (m.find? (fun p => p.1 == k)).map (fun p => p.2)

/-- The restoration loop of `parse_args`: for each extracted part, in index
order, replace its placeholder by the delimiter-wrapped, stripped content. -/
def restoreLoop : List Char → List (List Char × Delim) → Nat → List Char
  | s, [], _ => s
  | s, (content, d) :: rest, i =>
    restoreLoop
      (replaceAll s (placeholder i) (delimStr d ++ pyStrip content ++ delimStr d))
      rest (i + 1)

/-- `parse_args` from `src/gptcli/cli.py`: extract delimited literal spans,
parse `--name[=value| value]` options on the placeholder text (later
duplicates overwriting earlier ones, quotes stripped from values), remove
the matched flags (stripping surrounding whitespace only when at least one
flag matched), and restore the spans with stripped content. -/
def parse_args (input : List Char) :
    List Char × List (List Char × List Char) :=
  let ext := scanSpans input 0
  let fl := flagScan ext.1
  let args := fl.1.foldl
    (fun m kv => setArg m kv.1 (pyStripChars quoteChars kv.2)) []
  let text := if fl.1 = [] then ext.1 else pyStrip fl.2
  (restoreLoop text ext.2 0, args)

/-! ### Pricing (`src/gptcli/providers/openai.py`)

Prices are Python floats built from exact decimal literals; the claims only
compare which tier is returned, never float arithmetic, so tiers are
embedded with exact rational values. -/

/-- A pricing tier: prompt/response price per token. -/
structure Pricing where
  prompt : ℚ
  response : ℚ
deriving DecidableEq, Repr

/-- `MODEL_PRICING["gpt-3.5"]["standard"]`. -/
def MODEL_PRICING_gpt35_standard : Pricing :=
  ⟨(0.50 : ℚ) / 1000000, (1.50 : ℚ) / 1000000⟩

/-- `MODEL_PRICING["gpt-3.5"]["16k"]`. -/
def MODEL_PRICING_gpt35_16k : Pricing :=
  ⟨(0.003 : ℚ) / 1000, (0.004 : ℚ) / 1000⟩

/-- `MODEL_PRICING["gpt-4"]["standard"]`. -/
def MODEL_PRICING_gpt4_standard : Pricing :=
  ⟨(30.0 : ℚ) / 1000000, (60.0 : ℚ) / 1000000⟩

/-- `MODEL_PRICING["gpt-4"]["32k"]`. -/
def MODEL_PRICING_gpt4_32k : Pricing :=
  ⟨(60.0 : ℚ) / 1000000, (120.0 : ℚ) / 1000000⟩

/-- `MODEL_PRICING["gpt-4"]["turbo"]`. -/
def MODEL_PRICING_gpt4_turbo : Pricing :=
  ⟨(10.0 : ℚ) / 1000000, (30.0 : ℚ) / 1000000⟩

/-- `MODEL_PRICING["gpt-4"]["o-2024-05-13"]`. -/
def MODEL_PRICING_gpt4_o_2024_05_13 : Pricing :=
  ⟨(5.0 : ℚ) / 1000000, (15.0 : ℚ) / 1000000⟩

/-- `MODEL_PRICING["gpt-4"]["o-2024-08-06"]`. -/
def MODEL_PRICING_gpt4_o_2024_08_06 : Pricing :=
  ⟨(2.50 : ℚ) / 1000000, (10.0 : ℚ) / 1000000⟩

/-- `MODEL_PRICING["gpt-4"]["o-mini"]`. -/
def MODEL_PRICING_gpt4_o_mini : Pricing :=
  ⟨(0.150 : ℚ) / 1000000, (0.600 : ℚ) / 1000000⟩

/-- `MODEL_PRICING["o1"]["preview"]`. -/
def MODEL_PRICING_o1_preview : Pricing :=
  ⟨(15.0 : ℚ) / 1000000, (60.0 : ℚ) / 1000000⟩

/-- `MODEL_PRICING["o1"]["mini"]`. -/
def MODEL_PRICING_o1_mini : Pricing :=
  ⟨(3.0 : ℚ) / 1000000, (12.0 : ℚ) / 1000000⟩

/-- Python `model.startswith(lit)`. -/
def sw (lit : String) (model : List Char) : Bool :=
  swL lit.data model

/-- `re.match(r"gpt-4-\d\d\d\d-preview", model)`: anchored at the start,
four digits between `gpt-4-` and `-preview`, arbitrary tail. -/
def gpt4DatePreviewMatch : List Char → Bool
  | 'g' :: 'p' :: 't' :: '-' :: '4' :: '-' :: a :: b :: c :: d :: '-' ::
      'p' :: 'r' :: 'e' :: 'v' :: 'i' :: 'e' :: 'w' :: _ =>
    a.isDigit && b.isDigit && c.isDigit && d.isDigit
  | _ => false

/-- `gpt_pricing` from `src/gptcli/providers/openai.py`: ordered first-match
prefix resolution of a model id to a pricing tier. -/
def gpt_pricing (model : List Char) : Option Pricing :=
  if sw "gpt-3.5-turbo-16k" model then some MODEL_PRICING_gpt35_16k
  else if sw "gpt-3.5-turbo" model then some MODEL_PRICING_gpt35_standard
  else if sw "gpt-4-32k" model then some MODEL_PRICING_gpt4_32k
  else if sw "gpt-4o-mini" model then some MODEL_PRICING_gpt4_o_mini
  else if sw "gpt-4o-2024-05-13" model || sw "chatgpt-4o-latest" model then
    some MODEL_PRICING_gpt4_o_2024_05_13
  else if sw "gpt-4o" model then some MODEL_PRICING_gpt4_o_2024_08_06
  else if sw "gpt-4-turbo" model || gpt4DatePreviewMatch model then
    some MODEL_PRICING_gpt4_turbo
  else if sw "gpt-4" model then some MODEL_PRICING_gpt4_standard
  else if sw "o1-preview" model then some MODEL_PRICING_o1_preview
  else if sw "o1-mini" model then some MODEL_PRICING_o1_mini
  else none

/-! ### Streaming completion events (`OpenAICompletionProvider.complete`)

The provider response objects are embedded as plain data; Python truthiness
of an optional string/list is "present and nonempty". -/

/-- One element of `response.choices`. -/
structure Choice where
  finish_reason : Option (List Char)
  content : Option (List Char)
deriving DecidableEq, Repr

/-- `response.usage` token totals. -/
structure PyUsage where
  prompt_tokens : Nat
  completion_tokens : Nat
  total_tokens : Nat
deriving DecidableEq, Repr

/-- One streamed chunk: `choices`, optional `usage`, and the optional
`citations` attribute (`none` models both an absent attribute and `None`). -/
structure Chunk where
  choices : List Choice
  usage : Option PyUsage
  citations : Option (List (List Char))
deriving DecidableEq, Repr

/-- Modelled from the spec: the `CompletionEvent` variants used by
`complete` (`MessageDeltaEvent`, `UsageEvent.with_pricing`); their class
definitions live in `gptcli/completion.py`, which is not part of the
analysed sources.  A tagged variant of token deltas and usage records, per
the spec's data model. -/
inductive CompletionEvent where
  | messageDelta (text : List Char)
  | usage (prompt_tokens completion_tokens total_tokens : Nat) (pricing : Pricing)
deriving DecidableEq, Repr

/-- Is the event a token delta? -/
def isDelta : CompletionEvent → Bool
  | .messageDelta _ => true
  | _ => false

/-- Is the event a usage event? -/
def isUsage : CompletionEvent → Bool
  | .usage .. => true
  | _ => false

/-- The citation list formatting of `complete`: two line separators, then
one line per citation, 1-indexed (`os.linesep` is `"\n"` on the target
platform). -/
def citationsText (cits : List (List Char)) : List Char :=
  '\n' :: '\n' :: (cits.enum.flatMap fun p =>
    p.2 ++ (' ' :: '[' :: (Nat.toDigits 10 (p.1 + 1) ++ (']' :: ['\n']))))

/-- First guarded `yield` of the streaming loop: a content delta when the
chunk has a choice with no finish reason and nonempty content. -/
def contentEvents (c : Chunk) : List CompletionEvent :=
  match c.choices with
  | ch :: _ =>
    match ch.finish_reason, ch.content with
    | none, some s => if s = [] then [] else [.messageDelta s]
    | _, _ => []
  | [] => []

/-- Second guarded `yield`: a usage event when the chunk carries usage
totals AND `gpt_pricing` resolves a tier for the requested model (the
walrus-guarded conjunction on line 55 of `openai.py`). -/
def usageEvents (model : List Char) (c : Chunk) : List CompletionEvent :=
  match c.usage with
  | some u =>
    match gpt_pricing model with
    | some p => [.usage u.prompt_tokens u.completion_tokens u.total_tokens p]
    | none => []
  | none => []

/-- Third guarded `yield`: the extra citation delta when the chunk has a
truthy finish reason and truthy citation data. -/
def citationEvents (c : Chunk) : List CompletionEvent :=
  match c.choices with
  | ch :: _ =>
    match ch.finish_reason with
    | some fr =>
      if fr = [] then []
      else
        match c.citations with
        | some l => if l = [] then [] else [.messageDelta (citationsText l)]
        | none => []
    | none => []
  | [] => []

/-- All events yielded for one chunk, in the order of the three `yield`
sites in the streaming loop body. -/
def chunkEvents (model : List Char) (c : Chunk) : List CompletionEvent :=
  contentEvents c ++ usageEvents model c ++ citationEvents c

/-- The event sequence of `complete` in streaming mode over a chunk list,
pricing resolved on the unmodified `args["model"]`. -/
def completeStream (model : List Char) (chunks : List Chunk) : List CompletionEvent :=
  chunks.flatMap (chunkEvents model)

/-- The model id sent to the provider SDK: `complete` strips a leading
`oai-compat:` before the API call. -/
def stripOaiCompat (model : List Char) : List Char :=
  if sw "oai-compat:" model then model.drop ("oai-compat:".length) else model

/-- The observable behaviour of one streaming `complete` call: the outbound
model id used for the API request, and the normalized event sequence
(pricing looked up on the original id). -/
def complete (model : List Char) (chunks : List Chunk) :
    List Char × List CompletionEvent :=
  (stripOaiCompat model, completeStream model chunks)

/-! ### Error mapping of `complete` -/

/-- The provider SDK exceptions distinguished by the `except` clauses:
`openai.BadRequestError` (caught first) and any other `openai.APIError`. -/
inductive OpenAIExc where
  | badRequestError (message : List Char)
  | apiError (message : List Char)
deriving DecidableEq, Repr

/-- Modelled from the spec: the gptcli error taxonomy (`BadRequestError`,
`CompletionError` from `gptcli/completion.py`, which is not part of the
analysed sources), each carrying a message. -/
inductive GptError where
  | badRequest (message : List Char)
  | completionError (message : List Char)
deriving DecidableEq, Repr

/-- The message carried by a mapped error. -/
def gptErrorMessage : GptError → List Char
  | .badRequest m => m
  | .completionError m => m

/-- The message carried by a provider exception. -/
def excMessage : OpenAIExc → List Char
  | .badRequestError m => m
  | .apiError m => m

/-- The `except` clauses of `complete`: `openai.BadRequestError e` is
re-raised as `BadRequestError(e.message)`, any other `openai.APIError e`
as `CompletionError(e.message)`. -/
def mapExc : OpenAIExc → GptError
  | .badRequestError m => .badRequest m
  | .apiError m => .completionError m

/-- One pull-driven run of the streaming generator: the provider iterator
yields chunks until it possibly raises.  Events already yielded stand; on
an exception the generator stops at once (later items are never consumed)
and the mapped error is surfaced. -/
def runStream (model : List Char) : List (Chunk ⊕ OpenAIExc) →
    List CompletionEvent × Option GptError
  | [] => ([], none)
  | .inl c :: rest =>
    let p := runStream model rest
    (chunkEvents model c ++ p.1, p.2)
  | .inr e :: _ => ([], some (mapExc e))

/-! ### Partial markdown rendering (`StreamingMarkdownPrinter`) -/

/-- What `_render_partial_markdown` returns: either the `CustomMarkdown`
renderable built from a source text, or a plain `Text` renderable. -/
inductive Renderable where
  | markdownView (source : List Char)
  | plainText (content : List Char)
deriving DecidableEq, Repr

/-- The renderer state fields relevant to the rendering pass. -/
structure PrinterState where
  markdown : Bool
  current_text : List Char
  first_token : Bool
deriving DecidableEq, Repr

/-- The synthetic closing fence `"\n```"` appended for the rendering pass. -/
def syntheticFence : List Char := '\n' :: [tickChar, tickChar, tickChar]

/-- Python `text.count("```")`: non-overlapping occurrences, scanning left
to right. -/
def countFences : List Char → Nat
  | c1 :: c2 :: c3 :: rest =>
    if c1 = tickChar ∧ c2 = tickChar ∧ c3 = tickChar then countFences rest + 1
    else countFences (c2 :: c3 :: rest)
  | _ => 0

/-- `temp_text` of `_render_partial_markdown`: the synthetic fence is
appended exactly when the fence count is odd. -/
def fencedView (text : List Char) : List Char :=
  if countFences text % 2 = 1 then text ++ syntheticFence else text

/-- `_render_partial_markdown`, with the fallible `CustomMarkdown`
constructor abstracted as `ctorOk` (the code catches any `Exception` it
raises).  Returns the (unchanged) printer state, the text passed to the
constructor (`none` when it is not invoked), and the resulting renderable:
the markdown view of the fence-adjusted text on success, or the original
text as plain text in non-markdown mode and on constructor failure. -/
def render_partial_markdown (ctorOk : List Char → Bool) (st : PrinterState)
    (text : List Char) : PrinterState × Option (List Char) × Renderable :=
  if st.markdown = false then (st, none, .plainText text)
  else
    let temp := fencedView text
    if ctorOk temp then (st, some temp, .markdownView temp)
    else (st, some temp, .plainText text)

/-- The ordering property of the spec: once a usage event has appeared, no
further token delta appears. -/
def usageLast (events : List CompletionEvent) : Prop :=
  List.Pairwise (fun a b => isUsage a = true → isDelta b = false) events

/-! ### Multi-span lines

A line carrying several literal spans is described by a leading plain part
and a list of `(delimiter, content, trailing plain)` items; rendering
concatenates them.  The lemmas below treat lines of this shape with up to
ten spans (placeholder indices then stay single-digit). -/

/-- Render a structured line: leading plain text, then each span followed
by its trailing plain text. -/
def renderItems : List (Delim × List Char × List Char) → List Char
  | [] => []
  | (d, c, q) :: rest => delimStr d ++ c ++ delimStr d ++ q ++ renderItems rest

/-- The whole line: leading plain part and the span items. -/
def renderLine (p0 : List Char) (items : List (Delim × List Char × List Char)) :
    List Char :=
  p0 ++ renderItems items

/-- The placeholder-substituted residual for the items, numbering
placeholders from `k`. -/
def substItems (k : Nat) : List (Delim × List Char × List Char) → List Char
  | [] => []
  | (_, _, q) :: rest => placeholder k ++ q ++ substItems (k + 1) rest

/-- The extracted `(content, delimiter)` parts of the items, in order. -/
def partsItems : List (Delim × List Char × List Char) → List (List Char × Delim)
  | [] => []
  | (d, c, _) :: rest => (c, d) :: partsItems rest

/-- The items as restored by `parse_args`: each span re-wrapped around its
stripped content. -/
def stripItems : List (Delim × List Char × List Char) → List Char
  | [] => []
  | (d, c, q) :: rest => delimStr d ++ pyStrip c ++ delimStr d ++ q ++ stripItems rest

/-- The canonical shapes of the text following a placeholder block in the
residual: end of text, another placeholder block, or a nonempty `_`-free
text followed by a block or the end. -/
def AfterBlock (X : List Char) : Prop :=
  X = [] ∨ (∃ t, X = '_' :: '_' :: t)
    ∨ (∃ q Y, X = q ++ Y ∧ q ≠ [] ∧ '_' ∉ q
        ∧ (Y = [] ∨ ∃ t, Y = '_' :: '_' :: t))

/-- Does `p` occur as a contiguous substring of `s`?  Used to state that a
flag token appears nowhere in the placeholder-substituted text. -/
def hasSub (p : List Char) : List Char → Bool
  | [] => decide (p = [])
  | c :: cs => swL p (c :: cs) || hasSub p cs

/-! ## Theorems

All definitions above; everything from here on is proved about them. -/

theorem swL_append (p t : List Char) : swL p (p ++ t) = true := by
  induction p with
  | nil => rfl
  | cons c cs ih => simp [swL, ih]

theorem swL_false_of_head_ne {q c : Char} (ps cs : List Char) (h : q ≠ c) :
    swL (q :: ps) (c :: cs) = false := by
  simp [swL, beq_eq_false_iff_ne.mpr h]

theorem length_le_of_swL : ∀ {p s : List Char}, swL p s = true → p.length ≤ s.length := by
  intro p
  induction p with
  | nil => intro s _; simp
  | cons c cs ih =>
    intro s h
    cases s with
    | nil => simp [swL] at h
    | cons b bs =>
      simp only [swL, Bool.and_eq_true] at h
      simpa using ih h.2

theorem eq_append_drop_of_swL : ∀ {p s : List Char}, swL p s = true →
    s = p ++ s.drop p.length := by
  intro p
  induction p with
  | nil => intro s _; simp
  | cons c cs ih =>
    intro s h
    cases s with
    | nil => simp [swL] at h
    | cons b bs =>
      simp only [swL, Bool.and_eq_true, beq_iff_eq] at h
      simpa [h.1] using ih h.2

theorem delimStr_ne_nil (d : Delim) : delimStr d ≠ [] := by
  cases d <;> simp [delimStr]

theorem findClose_length {d : List Char} :
    ∀ {s pre rest : List Char}, findClose d s = some (pre, rest) →
      pre.length + d.length + rest.length = s.length := by
  intro s
  induction s with
  | nil => intro pre rest h; simp [findClose] at h
  | cons c cs ih =>
    intro pre rest h
    by_cases hp : swL d (c :: cs) = true
    · simp only [findClose, hp, if_pos] at h
      obtain ⟨h1, h2⟩ := Prod.mk.injEq .. ▸ Option.some.injEq .. ▸ h
      have hlen : d.length ≤ (c :: cs).length := length_le_of_swL hp
      subst h1 h2
      simp only [List.length_nil, List.length_drop, Nat.zero_add]
      omega
    · simp only [findClose, hp, if_neg, Bool.not_eq_true] at h
      cases hfc : findClose d cs with
      | none => rw [hfc] at h; exact absurd h (by simp)
      | some pr =>
        rw [hfc] at h
        obtain ⟨pre', rest'⟩ := pr
        simp only [Option.some.injEq, Prod.mk.injEq] at h
        obtain ⟨h1, h2⟩ := h
        subst h1 h2
        have := ih hfc
        simp only [List.length_cons]
        omega

theorem tryDelims_length : ∀ {ds : List Delim} {s : List Char}
    {d : Delim} {content rest : List Char},
    tryDelims ds s = some (d, content, rest) → rest.length + 2 ≤ s.length := by
  intro ds
  induction ds with
  | nil => intro s d content rest h; simp [tryDelims] at h
  | cons d0 ds ih =>
    intro s d content rest h
    by_cases hp : swL (delimStr d0) s = true
    · simp only [tryDelims, hp, if_pos] at h
      cases hfc : findClose (delimStr d0) (s.drop (delimStr d0).length) with
      | none => rw [hfc] at h; exact ih h
      | some pr =>
        rw [hfc] at h
        obtain ⟨content', rest'⟩ := pr
        simp only [Option.some.injEq, Prod.mk.injEq] at h
        obtain ⟨_, _, h3⟩ := h
        subst h3
        have hlen := findClose_length hfc
        have hd : 1 ≤ (delimStr d0).length := by
          cases d0 <;> simp [delimStr]
        have hsw : (delimStr d0).length ≤ s.length := length_le_of_swL hp
        simp only [List.length_drop] at hlen
        omega
    · simp only [tryDelims, hp, if_neg, Bool.not_eq_true] at h
      exact ih h

theorem tryOpen_length {s : List Char} {d : Delim} {content rest : List Char}
    (h : tryOpen s = some (d, content, rest)) : rest.length + 2 ≤ s.length :=
  tryDelims_length h

theorem scanGo_fuel : ∀ (f : Nat) (s : List Char) (k : Nat), s.length ≤ f →
    scanGo f k s = scanSpans s k := by
  intro f
  induction f using Nat.strong_induction_on with
  | _ f ih =>
    intro s k h
    match f, s with
    | 0, s =>
      have hs : s = [] := List.length_eq_zero.mp (Nat.le_zero.mp h)
      subst hs
      rfl
    | f + 1, [] => rfl
    | f + 1, c :: cs =>
      show scanGo (f + 1) k (c :: cs) = scanGo (c :: cs).length k (c :: cs)
      simp only [List.length_cons, scanGo]
      cases hto : tryOpen (c :: cs) with
      | none =>
        have h1 : cs.length ≤ f := by
          simp only [List.length_cons] at h; omega
        rw [ih f (Nat.lt_succ_self f) cs k h1,
          ih cs.length (Nat.lt_succ_of_le h1) cs k (Nat.le_refl _)]
      | some out =>
        obtain ⟨d, content, rest⟩ := out
        have hlen := tryOpen_length hto
        simp only [List.length_cons] at h hlen
        dsimp only
        rw [ih f (Nat.lt_succ_self f) rest (k + 1) (by omega),
          ih cs.length (by omega) rest (k + 1) (by omega)]

theorem scanSpans_nil (k : Nat) : scanSpans [] k = ([], []) := rfl

theorem scanSpans_cons (c : Char) (cs : List Char) (k : Nat) :
    scanSpans (c :: cs) k =
      match tryOpen (c :: cs) with
      | some (d, content, rest) =>
        let p := scanSpans rest (k + 1)
        (placeholder k ++ p.1, (content, d) :: p.2)
      | none =>
        let p := scanSpans cs k
        (c :: p.1, p.2) := by
  show scanGo (cs.length + 1) k (c :: cs) = _
  simp only [scanGo]
  cases hto : tryOpen (c :: cs) with
  | none =>
    rw [scanGo_fuel cs.length cs k (Nat.le_refl _)]
  | some out =>
    obtain ⟨d, content, rest⟩ := out
    have hlen := tryOpen_length hto
    simp only [List.length_cons] at hlen
    dsimp only
    rw [scanGo_fuel cs.length rest (k + 1) (by omega)]

theorem tryOpen_none_of_head {c : Char} (cs : List Char)
    (h1 : c ≠ tickChar) (h2 : c ≠ '"') : tryOpen (c :: cs) = none := by
  simp only [tryOpen, tryDelims, delimStr,
    swL_false_of_head_ne _ _ (Ne.symm h1), swL_false_of_head_ne _ _ (Ne.symm h2),
    Bool.false_eq_true, if_false]

theorem findClose_clean {d : List Char} {k : Char} (hd : d ≠ [])
    (hall : ∀ x ∈ d, x = k) :
    ∀ {c : List Char} (post : List Char), k ∉ c →
      findClose d (c ++ (d ++ post)) = some (c, post) := by
  intro c
  induction c with
  | nil =>
    intro post _
    cases d with
    | nil => exact absurd rfl hd
    | cons q ds =>
      have h1 : ((q :: ds) ++ post : List Char) = q :: (ds ++ post) := rfl
      show findClose (q :: ds) ([] ++ ((q :: ds) ++ post)) = some ([], post)
      rw [List.nil_append, h1]
      simp only [findClose, ← h1, swL_append, if_true]
      rw [List.drop_left]
  | cons ch c' ih =>
    intro post hc
    have hch : ch ≠ k := fun h => hc (h ▸ List.mem_cons_self ch c')
    have hc' : k ∉ c' := fun h => hc (List.mem_cons_of_mem ch h)
    cases d with
    | nil => exact absurd rfl hd
    | cons q ds =>
      have hqk : q = k := hall q (List.mem_cons_self q ds)
      have hsw : swL (q :: ds) (ch :: (c' ++ ((q :: ds) ++ post))) = false := by
        apply swL_false_of_head_ne
        rw [hqk]
        exact fun h => hch h.symm
      show findClose (q :: ds) (ch :: (c' ++ ((q :: ds) ++ post))) = some (ch :: c', post)
      simp only [findClose, hsw, Bool.false_eq_true, if_false]
      rw [ih post hc']

theorem tryOpen_nil : tryOpen [] = none := rfl

theorem scanSpans_of_tryOpen {s : List Char} {d : Delim} {content rest : List Char}
    (hto : tryOpen s = some (d, content, rest)) (k : Nat) :
    scanSpans s k = (placeholder k ++ (scanSpans rest (k + 1)).1,
      (content, d) :: (scanSpans rest (k + 1)).2) := by
  cases s with
  | nil => rw [tryOpen_nil] at hto; exact absurd hto (by simp)
  | cons c cs =>
    rw [scanSpans_cons, hto]

theorem scan_clean_append {a : List Char} (s : List Char) (k : Nat)
    (ha : ∀ x ∈ a, x ≠ tickChar ∧ x ≠ '"') :
    scanSpans (a ++ s) k = (a ++ (scanSpans s k).1, (scanSpans s k).2) := by
  induction a with
  | nil => simp
  | cons c a' ih =>
    have hc := ha c (List.mem_cons_self c a')
    have ha' : ∀ x ∈ a', x ≠ tickChar ∧ x ≠ '"' :=
      fun x hx => ha x (List.mem_cons_of_mem c hx)
    show scanSpans (c :: (a' ++ s)) k = _
    rw [scanSpans_cons, tryOpen_none_of_head _ hc.1 hc.2]
    simp only [ih ha', List.cons_append]

theorem scan_clean {s : List Char} (k : Nat)
    (hs : ∀ x ∈ s, x ≠ tickChar ∧ x ≠ '"') : scanSpans s k = (s, []) := by
  have := scan_clean_append [] k hs
  simpa [scanSpans_nil] using this

theorem takeWhile1_spec {p : Char → Bool} {s t r : List Char}
    (h : takeWhile1 p s = some (t, r)) : t ≠ [] ∧ s = t ++ r := by
  by_cases he : s.takeWhile p = []
  · simp [takeWhile1, he] at h
  · simp only [takeWhile1, he, if_false, Option.some.injEq, Prod.mk.injEq] at h
    obtain ⟨h1, h2⟩ := h
    subst h1 h2
    exact ⟨he, (List.takeWhile_append_dropWhile p s).symm⟩

theorem takeWhile1_length {p : Char → Bool} {s t r : List Char}
    (h : takeWhile1 p s = some (t, r)) : r.length + 1 ≤ s.length := by
  obtain ⟨hne, heq⟩ := takeWhile1_spec h
  have ht : 1 ≤ t.length := by
    cases t with
    | nil => exact absurd rfl hne
    | cons _ _ => simp
  rw [heq, List.length_append]
  omega

theorem flagValuePart_length {s1 : List Char} {ov : Option (List Char)}
    {rest : List Char} (h : flagValuePart s1 = (ov, rest)) :
    rest.length ≤ s1.length := by
  match s1 with
  | [] =>
    simp only [flagValuePart, Prod.mk.injEq] at h
    simp [← h.2]
  | c0 :: s2 =>
    simp only [flagValuePart] at h
    by_cases hc : c0 = '='
    · rw [if_pos hc] at h
      cases hv : takeWhile1 (fun c => !(pySpace c)) s2 with
      | some vr =>
        obtain ⟨v, s3⟩ := vr
        rw [hv] at h
        simp only [Prod.mk.injEq] at h
        have := takeWhile1_length hv
        rw [← h.2]
        simp only [List.length_cons]
        omega
      | none =>
        rw [hv] at h
        simp only [Prod.mk.injEq] at h
        rw [← h.2]
    · rw [if_neg hc] at h
      cases hw : takeWhile1 pySpace (c0 :: s2) with
      | some wr =>
        obtain ⟨w, s2w⟩ := wr
        rw [hw] at h
        dsimp only at h
        have hw2 := takeWhile1_length hw
        cases hv : takeWhile1 (fun c => !(pySpace c)) s2w with
        | some vr =>
          obtain ⟨v, s3⟩ := vr
          rw [hv] at h
          simp only [Prod.mk.injEq] at h
          have := takeWhile1_length hv
          rw [← h.2]
          simp only [List.length_cons] at hw2 ⊢
          omega
        | none =>
          rw [hv] at h
          simp only [Prod.mk.injEq] at h
          rw [← h.2]
      | none =>
        rw [hw] at h
        simp only [Prod.mk.injEq] at h
        rw [← h.2]

theorem flagMatchAt_length : ∀ {s : List Char} {nv : List Char × List Char}
    {rest : List Char}, flagMatchAt s = some (nv, rest) →
    rest.length + 3 ≤ s.length := by
  intro s nv rest h
  match s with
  | [] => simp [flagMatchAt] at h
  | [c] => simp [flagMatchAt] at h
  | c1 :: c2 :: s =>
    simp only [flagMatchAt] at h
    by_cases hdd : c1 = '-' ∧ c2 = '-'
    · rw [if_pos hdd] at h
      cases hwn : takeWhile1 isWordChar s with
      | none => rw [hwn] at h; exact absurd h (by simp)
      | some nr =>
        obtain ⟨name, s1⟩ := nr
        rw [hwn] at h
        dsimp only at h
        have hs1 : s1.length + 1 ≤ s.length := takeWhile1_length hwn
        cases hv : flagValuePart s1 with
        | mk ov r =>
          rw [hv] at h
          have hr : r.length ≤ s1.length := flagValuePart_length hv
          cases ov <;>
            · dsimp only at h
              simp only [Option.some.injEq, Prod.mk.injEq] at h
              obtain ⟨-, h2⟩ := h
              subst h2
              simp only [List.length_cons]
              omega
    · rw [if_neg hdd] at h
      exact absurd h (by simp)

theorem flagGo_fuel : ∀ (f : Nat) (s : List Char), s.length ≤ f →
    flagGo f s = flagScan s := by
  intro f
  induction f using Nat.strong_induction_on with
  | _ f ih =>
    intro s h
    match f, s with
    | 0, s =>
      have hs : s = [] := List.length_eq_zero.mp (Nat.le_zero.mp h)
      subst hs
      rfl
    | f + 1, [] => rfl
    | f + 1, c :: cs =>
      show flagGo (f + 1) (c :: cs) = flagGo (c :: cs).length (c :: cs)
      simp only [List.length_cons, flagGo]
      cases hm : flagMatchAt (c :: cs) with
      | none =>
        have h1 : cs.length ≤ f := by
          simp only [List.length_cons] at h; omega
        rw [ih f (Nat.lt_succ_self f) cs h1,
          ih cs.length (Nat.lt_succ_of_le h1) cs (Nat.le_refl _)]
      | some out =>
        obtain ⟨kv, rest⟩ := out
        have hlen := flagMatchAt_length hm
        simp only [List.length_cons] at h hlen
        dsimp only
        rw [ih f (Nat.lt_succ_self f) rest (by omega),
          ih cs.length (by omega) rest (by omega)]

theorem flagScan_nil : flagScan [] = ([], []) := rfl

theorem flagScan_cons (c : Char) (cs : List Char) :
    flagScan (c :: cs) =
      match flagMatchAt (c :: cs) with
      | some (kv, rest) =>
        let p := flagScan rest
        (kv :: p.1, p.2)
      | none =>
        let p := flagScan cs
        (p.1, c :: p.2) := by
  show flagGo (cs.length + 1) (c :: cs) = _
  simp only [flagGo]
  cases hm : flagMatchAt (c :: cs) with
  | none =>
    rw [flagGo_fuel cs.length cs (Nat.le_refl _)]
  | some out =>
    obtain ⟨kv, rest⟩ := out
    have hlen := flagMatchAt_length hm
    simp only [List.length_cons] at hlen
    dsimp only
    rw [flagGo_fuel cs.length rest (by omega)]

theorem flagScan_residual_of_no_matches :
    ∀ {s : List Char}, (flagScan s).1 = [] → (flagScan s).2 = s := by
  intro s
  induction s with
  | nil => intro _; rfl
  | cons c cs ih =>
    intro h
    rw [flagScan_cons] at h ⊢
    cases hm : flagMatchAt (c :: cs) with
    | none =>
      rw [hm] at h
      dsimp only at h ⊢
      rw [ih h]
    | some out =>
      obtain ⟨kv, rest⟩ := out
      rw [hm] at h
      simp at h

theorem replGo_fuel {p : List Char} (hp : p ≠ []) (r : List Char) :
    ∀ (f : Nat) (s : List Char), s.length ≤ f → replGo f s p r = replGo s.length s p r := by
  intro f
  induction f using Nat.strong_induction_on with
  | _ f ih =>
    intro s h
    match f, s with
    | 0, s =>
      have hs : s = [] := List.length_eq_zero.mp (Nat.le_zero.mp h)
      subst hs
      rfl
    | f + 1, [] => rfl
    | f + 1, c :: cs =>
      have hp1 : 1 ≤ p.length := by
        cases p with
        | nil => exact absurd rfl hp
        | cons _ _ => simp
      show replGo (f + 1) (c :: cs) p r = replGo (c :: cs).length (c :: cs) p r
      simp only [List.length_cons, replGo]
      by_cases hsw : swL p (c :: cs) = true
      · simp only [hsw, if_true]
        have hdl : ((c :: cs).drop p.length).length ≤ cs.length := by
          simp only [List.length_drop, List.length_cons]
          omega
        simp only [List.length_cons] at h
        rw [ih f (Nat.lt_succ_self f) _ (by omega),
          ih cs.length (by omega) _ (by omega)]
      · simp only [hsw, Bool.false_eq_true, if_false]
        simp only [List.length_cons] at h
        rw [ih f (Nat.lt_succ_self f) cs (by omega),
          ih cs.length (by omega) cs (by omega)]

theorem replaceAll_nil (p r : List Char) : replaceAll [] p r = [] := by
  cases p <;> rfl

theorem replaceAll_cons (c : Char) (cs : List Char) (q : Char) (ps r : List Char) :
    replaceAll (c :: cs) (q :: ps) r =
      if swL (q :: ps) (c :: cs) then
        r ++ replaceAll ((c :: cs).drop (q :: ps).length) (q :: ps) r
      else c :: replaceAll cs (q :: ps) r := by
  show replGo (cs.length + 1) (c :: cs) (q :: ps) r = _
  simp only [replGo]
  by_cases hsw : swL (q :: ps) (c :: cs) = true
  · simp only [hsw, if_true]
    have : ((c :: cs).drop (q :: ps).length).length ≤ cs.length := by
      simp only [List.length_drop, List.length_cons]
      omega
    rw [replGo_fuel (by simp) r cs.length _ (by omega)]
    rfl
  · simp only [hsw, Bool.false_eq_true, if_false]
    rw [replGo_fuel (by simp) r cs.length cs (Nat.le_refl _)]
    rfl

theorem replaceAll_skip {q : Char} (ps r : List Char) :
    ∀ {a : List Char} (s : List Char), q ∉ a →
      replaceAll (a ++ s) (q :: ps) r = a ++ replaceAll s (q :: ps) r := by
  intro a
  induction a with
  | nil => intro s _; simp
  | cons c a' ih =>
    intro s ha
    have hc : q ≠ c := fun h => ha (h ▸ List.mem_cons_self c a')
    have ha' : q ∉ a' := fun h => ha (List.mem_cons_of_mem c h)
    show replaceAll (c :: (a' ++ s)) (q :: ps) r = _
    rw [replaceAll_cons, swL_false_of_head_ne _ _ hc]
    simp only [Bool.false_eq_true, if_false, ih s ha', List.cons_append]

theorem replaceAll_here (q : Char) (ps r b : List Char) :
    replaceAll ((q :: ps) ++ b) (q :: ps) r = r ++ replaceAll b (q :: ps) r := by
  show replaceAll (q :: (ps ++ b)) (q :: ps) r = _
  rw [replaceAll_cons]
  have hsw : swL (q :: ps) (q :: (ps ++ b)) = true := swL_append (q :: ps) b
  rw [hsw, if_pos rfl]
  congr 1
  rw [show q :: (ps ++ b) = (q :: ps) ++ b from rfl, List.drop_left]

theorem replaceAll_absent {q : Char} (ps r : List Char) {s : List Char}
    (h : q ∉ s) : replaceAll s (q :: ps) r = s := by
  have := replaceAll_skip ps r [] h
  simpa [replaceAll_nil] using this

/-! ### Concrete evaluations of `parse_args`

Spot checks of the embedding on inputs whose behaviour was confirmed
against the regex semantics the source relies on. -/

example : parse_args ("--a --b".data) = ([], [("a".data, "--b".data)]) := by decide

example : parse_args ("` a `".data) = ("`a`".data, []) := by decide

example : parse_args ("--a=".data) = ("=".data, [("a".data, [])]) := by decide

example : parse_args ("say `--x hi` ok".data) = ("say `--x hi` ok".data, []) := by decide

example : parse_args ("--a  =b".data) = ([], [("a".data, "=b".data)]) := by decide

/-! ### Shape lemmas for the per-chunk event lists -/

theorem contentEvents_shape (c : Chunk) :
    contentEvents c = [] ∨ ∃ s, contentEvents c = [.messageDelta s] := by
  unfold contentEvents
  split
  · split
    · split
      · exact Or.inl rfl
      · exact Or.inr ⟨_, rfl⟩
    · exact Or.inl rfl
  · exact Or.inl rfl

theorem citationEvents_shape (c : Chunk) :
    citationEvents c = [] ∨ ∃ s, citationEvents c = [.messageDelta s] := by
  unfold citationEvents
  split
  · split
    · split
      · exact Or.inl rfl
      · split
        · split
          · exact Or.inl rfl
          · exact Or.inr ⟨_, rfl⟩
        · exact Or.inl rfl
    · exact Or.inl rfl
  · exact Or.inl rfl

theorem usageEvents_of_none {c : Chunk} (model : List Char)
    (h : c.usage = none) : usageEvents model c = [] := by
  unfold usageEvents
  rw [h]

theorem usageEvents_of_no_pricing {model : List Char} (c : Chunk)
    (h : gpt_pricing model = none) : usageEvents model c = [] := by
  unfold usageEvents
  rw [h]
  split <;> rfl

theorem usageEvents_of_some {c : Chunk} {model : List Char}
    {u : PyUsage} {p : Pricing} (hu : c.usage = some u)
    (hp : gpt_pricing model = some p) :
    usageEvents model c = [.usage u.prompt_tokens u.completion_tokens u.total_tokens p] := by
  unfold usageEvents
  rw [hu, hp]

theorem contentEvents_countP_usage (c : Chunk) :
    (contentEvents c).countP isUsage = 0 := by
  rcases contentEvents_shape c with h | ⟨s, h⟩ <;> rw [h] <;> simp [isUsage]

theorem citationEvents_countP_usage (c : Chunk) :
    (citationEvents c).countP isUsage = 0 := by
  rcases citationEvents_shape c with h | ⟨s, h⟩ <;> rw [h] <;> simp [isUsage]

theorem contentEvents_not_usage {c : Chunk} {e : CompletionEvent}
    (h : e ∈ contentEvents c) : isUsage e = false := by
  rcases contentEvents_shape c with hs | ⟨s, hs⟩ <;> rw [hs] at h
  · simp at h
  · simp at h
    rw [h]
    rfl

theorem citationEvents_not_usage {c : Chunk} {e : CompletionEvent}
    (h : e ∈ citationEvents c) : isUsage e = false := by
  rcases citationEvents_shape c with hs | ⟨s, hs⟩ <;> rw [hs] at h
  · simp at h
  · simp at h
    rw [h]
    rfl

theorem chunkEvents_not_usage_of_none {model : List Char} {c : Chunk}
    {e : CompletionEvent} (hu : c.usage = none)
    (h : e ∈ chunkEvents model c) : isUsage e = false := by
  unfold chunkEvents at h
  rw [usageEvents_of_none model hu] at h
  simp only [List.append_nil, List.mem_append] at h
  rcases h with h | h
  · exact contentEvents_not_usage h
  · exact citationEvents_not_usage h

theorem chunkEvents_not_usage_of_no_pricing {model : List Char} {c : Chunk}
    {e : CompletionEvent} (hp : gpt_pricing model = none)
    (h : e ∈ chunkEvents model c) : isUsage e = false := by
  unfold chunkEvents at h
  rw [usageEvents_of_no_pricing c hp] at h
  simp only [List.append_nil, List.mem_append] at h
  rcases h with h | h
  · exact contentEvents_not_usage h
  · exact citationEvents_not_usage h

theorem usageLast_of_no_usage {l : List CompletionEvent}
    (h : ∀ e ∈ l, isUsage e = false) : usageLast l := by
  induction l with
  | nil => exact List.Pairwise.nil
  | cons e l ih =>
    refine List.Pairwise.cons ?_ (ih fun x hx => h x (List.mem_cons_of_mem e hx))
    intro b _ hu
    rw [h e (List.mem_cons_self e l)] at hu
    exact absurd hu (by simp)

theorem usageLast_chunk (model : List Char) (c : Chunk)
    (hcit : citationEvents c = []) : usageLast (chunkEvents model c) := by
  unfold chunkEvents
  rw [hcit, List.append_nil]
  unfold usageLast
  rw [List.pairwise_append]
  refine ⟨usageLast_of_no_usage (fun e he => contentEvents_not_usage he), ?_, ?_⟩
  · cases hu : c.usage with
    | none => rw [usageEvents_of_none model hu]; exact List.Pairwise.nil
    | some u =>
      cases hp : gpt_pricing model with
      | none => rw [usageEvents_of_no_pricing c hp]; exact List.Pairwise.nil
      | some p =>
        rw [usageEvents_of_some hu hp]
        exact List.pairwise_singleton _ _
  · intro a ha b _ hu
    rw [contentEvents_not_usage ha] at hu
    exact absurd hu (by simp)

/-! ### Multi-span machinery -/

theorem swL_append_left : ∀ (a p s : List Char), swL (a ++ p) (a ++ s) = swL p s := by
  intro a
  induction a with
  | nil => intro p s; rfl
  | cons x xs ih =>
    intro p s
    show (x == x && swL (xs ++ p) (xs ++ s)) = swL p s
    rw [beq_self_eq_true, Bool.true_and, ih]

theorem swL_false_of_mismatch : ∀ (a : List Char) {c c' : Char} (p s : List Char),
    c ≠ c' → swL (a ++ c :: p) (a ++ c' :: s) = false := by
  intro a c c' p s h
  rw [swL_append_left]
  exact swL_false_of_head_ne _ _ h

theorem toDigits_base10_lt (n : Nat) (h : n < 10) :
    Nat.toDigits 10 n = [Nat.digitChar n] := by
  interval_cases n <;> rfl

theorem digitChar_ne_digitChar {i j : Nat} (hi : i < 10) (hj : j < 10)
    (hij : i ≠ j) : Nat.digitChar i ≠ Nat.digitChar j := by
  interval_cases i <;> interval_cases j <;> first
    | exact absurd rfl hij
    | decide

theorem digitChar_ne_underscore {j : Nat} (hj : j < 10) :
    Nat.digitChar j ≠ '_' := by
  interval_cases j <;> decide

theorem placeholder_concrete (n : Nat) (h : n < 10) :
    placeholder n = '_' :: '_' :: 'E' :: 'X' :: 'T' :: 'R' :: 'A' :: 'C' :: 'T' ::
      'E' :: 'D' :: '_' :: 'P' :: 'A' :: 'R' :: 'T' :: '_' ::
      Nat.digitChar n :: '_' :: '_' :: [] := by
  rw [placeholder, toDigits_base10_lt n h]
  rfl

theorem substItems_shape (k : Nat) (items : List (Delim × List Char × List Char)) :
    substItems k items = [] ∨ ∃ t, substItems k items = '_' :: '_' :: t := by
  cases items with
  | nil => exact Or.inl rfl
  | cons it rest =>
    obtain ⟨d, c, q⟩ := it
    refine Or.inr ⟨"EXTRACTED_PART_".data ++ Nat.toDigits 10 k ++ "__".data
      ++ q ++ substItems (k + 1) rest, ?_⟩
    show placeholder k ++ q ++ substItems (k + 1) rest = _
    rw [placeholder]
    rfl

/-- Like `tryOpen_span`, but needing nothing of the following text: it
suffices that a tick span has nonempty content. -/
theorem tryOpen_span2 (d : Delim) (c post : List Char)
    (hc : keyChar d ∉ c) (hne : d = Delim.tick → c ≠ []) :
    tryOpen (delimStr d ++ c ++ delimStr d ++ post) = some (d, c, post) := by
  have hall : ∀ x ∈ delimStr d, x = keyChar d := by
    intro x hx
    cases d <;> simp only [delimStr, keyChar, List.mem_cons,
      List.mem_singleton, List.not_mem_nil, or_false] at hx ⊢ <;> tauto
  have hfind := findClose_clean (delimStr_ne_nil d) hall post hc
  have hassoc : delimStr d ++ c ++ delimStr d ++ post
      = delimStr d ++ (c ++ (delimStr d ++ post)) := by
    simp [List.append_assoc]
  rw [hassoc]
  cases d with
  | fence =>
    simp only [tryOpen, tryDelims, delimStr] at hfind ⊢
    simp only [swL_append, if_true, List.drop_left]
    rw [hfind]
  | quote =>
    have hfence : swL (delimStr Delim.fence)
        (delimStr Delim.quote ++ (c ++ (delimStr Delim.quote ++ post))) = false := by
      apply swL_false_of_head_ne
      decide
    simp only [tryOpen, tryDelims, delimStr] at hfence hfind ⊢
    simp only [hfence, Bool.false_eq_true, if_false, swL_append, if_true, List.drop_left]
    rw [hfind]
  | tick =>
    obtain ⟨ch, c', hcc⟩ : ∃ ch c', c = ch :: c' := by
      cases c with
      | nil => exact absurd rfl (hne rfl)
      | cons ch c' => exact ⟨ch, c', rfl⟩
    subst hcc
    have hch : ch ≠ tickChar := fun h => hc (by simp [keyChar, h])
    have hfence : swL (delimStr Delim.fence)
        (delimStr Delim.tick ++ ((ch :: c') ++ (delimStr Delim.tick ++ post))) = false := by
      show (tickChar == tickChar
        && swL [tickChar, tickChar] (ch :: (c' ++ ([tickChar] ++ post)))) = false
      rw [swL_false_of_head_ne _ _ (Ne.symm hch)]
      simp
    have hquote : swL (delimStr Delim.quote)
        (delimStr Delim.tick ++ ((ch :: c') ++ (delimStr Delim.tick ++ post))) = false := by
      apply swL_false_of_head_ne
      decide
    simp only [tryOpen, tryDelims, delimStr] at hfence hquote hfind ⊢
    simp only [hfence, hquote, Bool.false_eq_true, if_false, swL_append, if_true,
      List.drop_left]
    rw [hfind]

theorem scan_items : ∀ (items : List (Delim × List Char × List Char)) (k : Nat),
    (∀ i ∈ items, keyChar i.1 ∉ i.2.1
      ∧ (∀ x ∈ i.2.2, x ≠ tickChar ∧ x ≠ '"')
      ∧ (i.1 = Delim.tick → i.2.1 ≠ [])) →
    scanSpans (renderItems items) k = (substItems k items, partsItems items) := by
  intro items
  induction items with
  | nil => intro k _; exact scanSpans_nil k
  | cons it rest ih =>
    intro k h
    obtain ⟨d, c, q⟩ := it
    obtain ⟨hc, hq, hne⟩ := h (d, c, q) (List.mem_cons_self _ _)
    have hrest : ∀ i ∈ rest, keyChar i.1 ∉ i.2.1
        ∧ (∀ x ∈ i.2.2, x ≠ tickChar ∧ x ≠ '"')
        ∧ (i.1 = Delim.tick → i.2.1 ≠ []) :=
      fun i hi => h i (List.mem_cons_of_mem _ hi)
    have hto := tryOpen_span2 d c (q ++ renderItems rest) hc hne
    have hrw : renderItems ((d, c, q) :: rest)
        = delimStr d ++ c ++ delimStr d ++ (q ++ renderItems rest) := by
      show delimStr d ++ c ++ delimStr d ++ q ++ renderItems rest = _
      simp [List.append_assoc]
    rw [hrw, scanSpans_of_tryOpen hto k, scan_clean_append _ (k + 1) hq, ih (k + 1) hrest]
    show (placeholder k ++ (q ++ substItems (k + 1) rest), _) = _
    simp [substItems, partsItems, List.append_assoc]

theorem scan_line (p0 : List Char) (items : List (Delim × List Char × List Char))
    (hp0 : ∀ x ∈ p0, x ≠ tickChar ∧ x ≠ '"')
    (hitems : ∀ i ∈ items, keyChar i.1 ∉ i.2.1
      ∧ (∀ x ∈ i.2.2, x ≠ tickChar ∧ x ≠ '"')
      ∧ (i.1 = Delim.tick → i.2.1 ≠ [])) :
    scanSpans (renderLine p0 items) 0 = (p0 ++ substItems 0 items, partsItems items) := by
  show scanSpans (p0 ++ renderItems items) 0 = _
  rw [scan_clean_append _ 0 hp0, scan_items items 0 hitems]

theorem replaceAll_no_match_prefix (q0 : Char) (ps r : List Char) :
    ∀ (a s : List Char),
    (∀ n, n < a.length → swL (q0 :: ps) (a.drop n ++ s) = false) →
    replaceAll (a ++ s) (q0 :: ps) r = a ++ replaceAll s (q0 :: ps) r := by
  intro a
  induction a with
  | nil => intro s _; simp
  | cons x a' ih =>
    intro s h
    show replaceAll (x :: (a' ++ s)) (q0 :: ps) r = _
    rw [replaceAll_cons]
    have h0 := h 0 (by simp)
    rw [show ((x :: a').drop 0 ++ s) = x :: (a' ++ s) from rfl] at h0
    rw [h0]
    simp only [Bool.false_eq_true, if_false]
    rw [ih s (fun n hn => by
      have := h (n + 1) (by simpa using Nat.succ_lt_succ hn)
      simpa using this)]
    rfl

/-- The kernel of the placeholder-uniqueness argument: the 18-character tail
`EXTRACTED_PART_<d>__` of a placeholder never begins at the junction between
a nonempty `_`-free text and a following placeholder block (or the end). -/
theorem tail18_no_match (di : Char) (q Y : List Char) (hqU : '_' ∉ q)
    (hY : Y = [] ∨ ∃ t, Y = '_' :: '_' :: t) :
    swL ("EXTRACTED_PART_".data ++ di :: '_' :: '_' :: []) (q ++ Y) = false := by
  cases hsw : swL ("EXTRACTED_PART_".data ++ di :: '_' :: '_' :: []) (q ++ Y) with
  | false => rfl
  | true =>
    exfalso
    have heq := eq_append_drop_of_swL hsw
    have hplen : ("EXTRACTED_PART_".data ++ di :: '_' :: '_' :: []).length = 18 := by
      rw [List.length_append]
      rfl
    by_cases hlen : q.length ≤ 9
    · rcases hY with hY | ⟨t, hY⟩
      · subst hY
        have hl := congrArg List.length heq
        rw [List.length_append, List.length_append, hplen] at hl
        simp at hl
        omega
      · subst hY
        have h1 : (q ++ ('_' :: '_' :: t)).get? q.length = some '_' := by
          rw [List.get?_append_right (Nat.le_refl _)]
          simp
        rw [heq] at h1
        rw [List.get?_append (by rw [hplen]; omega)] at h1
        rw [List.get?_append (show q.length < "EXTRACTED_PART_".data.length by
          rw [show ("EXTRACTED_PART_".data.length) = 15 from rfl]; omega)] at h1
        have h9 : q.length = 9 := by
          have hfact : ∀ n, n ≤ 9 → "EXTRACTED_PART_".data.get? n = some '_' → n = 9 := by
            decide
          exact hfact q.length hlen h1
        have h3 : (q ++ ('_' :: '_' :: t)).get? (q.length + 1) = some '_' := by
          rw [List.get?_append_right (by omega)]
          simp
        rw [heq] at h3
        rw [List.get?_append (by rw [hplen]; omega)] at h3
        rw [List.get?_append (show q.length + 1 < "EXTRACTED_PART_".data.length by
          rw [show ("EXTRACTED_PART_".data.length) = 15 from rfl]; omega)] at h3
        rw [h9] at h3
        rw [show ("EXTRACTED_PART_".data.get? (9 + 1)) = some 'P' from rfl] at h3
        simp at h3
    · push_neg at hlen
      have h1 : (q ++ Y).get? 9 = q.get? 9 := List.get?_append (by omega)
      rw [heq] at h1
      rw [List.get?_append (by rw [hplen]; omega)] at h1
      rw [List.get?_append (show (9 : Nat) < "EXTRACTED_PART_".data.length by
        rw [show ("EXTRACTED_PART_".data.length) = 15 from rfl]; omega)] at h1
      rw [show ("EXTRACTED_PART_".data.get? 9) = some '_' from rfl] at h1
      exact hqU (List.get?_mem h1.symm)

theorem block_no_match {i j : Nat} (hi : i < 10) (hj : j < 10) (hij : i ≠ j)
    {X : List Char} (hX : AfterBlock X) :
    ∀ n, n < (placeholder j).length →
      swL (placeholder i) ((placeholder j).drop n ++ X) = false := by
  intro n hn
  rw [placeholder_concrete j hj] at hn ⊢
  rw [placeholder_concrete i hi]
  have hn20 : n < 20 := by
    simpa using hn
  have hne_ij := digitChar_ne_digitChar hi hj hij
  have hne_uj : '_' ≠ Nat.digitChar j := (digitChar_ne_underscore hj).symm
  interval_cases n <;>
    simp only [List.drop_succ_cons, List.drop_zero, List.cons_append, List.nil_append]
  · exact swL_false_of_mismatch
      ['_', '_', 'E', 'X', 'T', 'R', 'A', 'C', 'T', 'E', 'D', '_', 'P', 'A', 'R', 'T', '_']
      _ _ hne_ij
  · exact swL_false_of_mismatch ['_'] _ _ (by decide)
  · exact swL_false_of_head_ne _ _ (by decide)
  · exact swL_false_of_head_ne _ _ (by decide)
  · exact swL_false_of_head_ne _ _ (by decide)
  · exact swL_false_of_head_ne _ _ (by decide)
  · exact swL_false_of_head_ne _ _ (by decide)
  · exact swL_false_of_head_ne _ _ (by decide)
  · exact swL_false_of_head_ne _ _ (by decide)
  · exact swL_false_of_head_ne _ _ (by decide)
  · exact swL_false_of_head_ne _ _ (by decide)
  · exact swL_false_of_mismatch ['_'] _ _ (by decide)
  · exact swL_false_of_head_ne _ _ (by decide)
  · exact swL_false_of_head_ne _ _ (by decide)
  · exact swL_false_of_head_ne _ _ (by decide)
  · exact swL_false_of_head_ne _ _ (by decide)
  · exact swL_false_of_mismatch ['_'] _ _ hne_uj
  · exact swL_false_of_head_ne _ _ hne_uj
  · -- position 18: the pattern tail against the junction
    show swL (['_', '_'] ++ ("EXTRACTED_PART_".data ++ Nat.digitChar i :: '_' :: '_' :: []))
      (['_', '_'] ++ X) = false
    rw [swL_append_left]
    rcases hX with hX | ⟨t, hX⟩ | ⟨q, Y, hX, _, hqU, hY⟩
    · subst hX
      rfl
    · subst hX
      exact swL_false_of_head_ne _ _ (by decide)
    · subst hX
      exact tail18_no_match (Nat.digitChar i) q Y hqU hY
  · -- position 19: a single underscore against the junction
    rcases hX with hX | ⟨t, hX⟩ | ⟨q, Y, hX, hq, hqU, hY⟩
    · subst hX
      rfl
    · subst hX
      exact swL_false_of_mismatch ['_', '_'] _ _ (by decide)
    · subst hX
      obtain ⟨q0, q', hq0⟩ : ∃ q0 q', q = q0 :: q' := by
        cases q with
        | nil => exact absurd rfl hq
        | cons q0 q' => exact ⟨q0, q', rfl⟩
      subst hq0
      exact swL_false_of_mismatch ['_'] _ _
        (fun h => hqU (h ▸ List.mem_cons_self q0 q'))

theorem replaceAll_block {i j : Nat} (hi : i < 10) (hj : j < 10) (hij : i ≠ j)
    (X r : List Char) (hX : AfterBlock X)
    (hXind : replaceAll X (placeholder i) r = X) :
    replaceAll (placeholder j ++ X) (placeholder i) r = placeholder j ++ X := by
  obtain ⟨ps, hpi⟩ : ∃ ps, placeholder i = '_' :: ps :=
    ⟨_, placeholder_concrete i hi⟩
  rw [hpi, replaceAll_no_match_prefix '_' ps r (placeholder j) X
    (fun n hn => by rw [← hpi]; exact block_no_match hi hj hij hX n hn), ← hpi, hXind]

theorem mem_dropWhile_imp {x : Char} {p : Char → Bool} :
    ∀ {l : List Char}, x ∈ l.dropWhile p → x ∈ l := by
  intro l
  induction l with
  | nil => intro h; simpa using h
  | cons c cs ih =>
    intro h
    rw [List.dropWhile_cons] at h
    by_cases hp : p c = true
    · rw [if_pos hp] at h
      exact List.mem_cons_of_mem c (ih h)
    · rw [if_neg hp] at h
      exact h

theorem mem_pyStrip_imp {x : Char} {s : List Char} (h : x ∈ pyStrip s) : x ∈ s := by
  unfold pyStrip at h
  rw [List.mem_reverse] at h
  have h2 := mem_dropWhile_imp h
  rw [List.mem_reverse] at h2
  exact mem_dropWhile_imp h2

theorem underscore_not_mem_delimStr (d : Delim) : '_' ∉ delimStr d := by
  cases d <;> decide

theorem afterBlock_of_subst (q : List Char) (k : Nat)
    (items : List (Delim × List Char × List Char)) (hqU : '_' ∉ q) :
    AfterBlock (q ++ substItems k items) := by
  cases q with
  | nil =>
    rw [List.nil_append]
    rcases substItems_shape k items with h | ⟨t, h⟩
    · exact Or.inl h
    · exact Or.inr (Or.inl ⟨t, h⟩)
  | cons q0 q' =>
    refine Or.inr (Or.inr ⟨q0 :: q', substItems k items, rfl, by simp, hqU, ?_⟩)
    rcases substItems_shape k items with h | ⟨t, h⟩
    · exact Or.inl h
    · exact Or.inr ⟨t, h⟩

theorem replaceAll_subst_eq (r : List Char) :
    ∀ (items : List (Delim × List Char × List Char)) (k i : Nat),
    i < k → k + items.length ≤ 10 → i < 10 →
    (∀ it ∈ items, '_' ∉ it.2.2) →
    replaceAll (substItems k items) (placeholder i) r = substItems k items := by
  intro items
  induction items with
  | nil =>
    intro k i _ _ _ _
    exact replaceAll_nil _ _
  | cons it rest ih =>
    intro k i hik hbound hi10 hq
    obtain ⟨d, c, q⟩ := it
    have hk10 : k < 10 := by
      simp only [List.length_cons] at hbound
      omega
    have hrw : substItems k ((d, c, q) :: rest)
        = placeholder k ++ (q ++ substItems (k + 1) rest) := by
      show placeholder k ++ q ++ substItems (k + 1) rest = _
      rw [List.append_assoc]
    rw [hrw]
    have hqU : '_' ∉ q := hq (d, c, q) (List.mem_cons_self _ _)
    have hrest : ∀ it ∈ rest, '_' ∉ it.2.2 :=
      fun i2 hi2 => hq i2 (List.mem_cons_of_mem _ hi2)
    have hXind : replaceAll (q ++ substItems (k + 1) rest) (placeholder i) r
        = q ++ substItems (k + 1) rest := by
      obtain ⟨ps, hpi⟩ : ∃ ps, placeholder i = '_' :: ps :=
        ⟨_, placeholder_concrete i hi10⟩
      rw [hpi, replaceAll_skip ps r _ hqU, ← hpi,
        ih (k + 1) i (by omega) (by simp only [List.length_cons] at hbound; omega)
          hi10 hrest]
    exact replaceAll_block hi10 hk10 (by omega) _ r
      (afterBlock_of_subst q (k + 1) rest hqU) hXind

theorem restore_items :
    ∀ (items : List (Delim × List Char × List Char)) (k : Nat) (A : List Char),
    '_' ∉ A →
    (∀ it ∈ items, '_' ∉ it.2.1 ∧ '_' ∉ it.2.2) →
    k + items.length ≤ 10 →
    restoreLoop (A ++ substItems k items) (partsItems items) k = A ++ stripItems items := by
  intro items
  induction items with
  | nil =>
    intro k A _ _ _
    show restoreLoop (A ++ []) [] k = A ++ []
    rfl
  | cons it rest ih =>
    intro k A hA h hb
    obtain ⟨d, c, q⟩ := it
    have hk10 : k < 10 := by
      simp only [List.length_cons] at hb
      omega
    obtain ⟨hcU0, hqU0⟩ := h (d, c, q) (List.mem_cons_self _ _)
    have hcU : '_' ∉ c := hcU0
    have hqU : '_' ∉ q := hqU0
    have hrest : ∀ it ∈ rest, '_' ∉ it.2.1 ∧ '_' ∉ it.2.2 :=
      fun i2 hi2 => h i2 (List.mem_cons_of_mem _ hi2)
    show restoreLoop (A ++ (placeholder k ++ q ++ substItems (k + 1) rest))
      ((c, d) :: partsItems rest) k = _
    have hstep : restoreLoop (A ++ (placeholder k ++ q ++ substItems (k + 1) rest))
        ((c, d) :: partsItems rest) k
        = restoreLoop (replaceAll (A ++ (placeholder k ++ q ++ substItems (k + 1) rest))
            (placeholder k) (delimStr d ++ pyStrip c ++ delimStr d))
          (partsItems rest) (k + 1) := rfl
    rw [hstep]
    obtain ⟨ps, hpk⟩ : ∃ ps, placeholder k = '_' :: ps :=
      ⟨_, placeholder_concrete k hk10⟩
    have hsubst : replaceAll (substItems (k + 1) rest) (placeholder k)
        (delimStr d ++ pyStrip c ++ delimStr d) = substItems (k + 1) rest :=
      replaceAll_subst_eq _ rest (k + 1) k (by omega)
        (by simp only [List.length_cons] at hb; omega) hk10
        (fun i2 hi2 => (hrest i2 hi2).2)
    rw [hpk] at hsubst
    have hrepl : replaceAll (A ++ (placeholder k ++ q ++ substItems (k + 1) rest))
        (placeholder k) (delimStr d ++ pyStrip c ++ delimStr d)
        = A ++ (delimStr d ++ pyStrip c ++ delimStr d) ++ q ++ substItems (k + 1) rest := by
      rw [show placeholder k ++ q ++ substItems (k + 1) rest
          = placeholder k ++ (q ++ substItems (k + 1) rest) from List.append_assoc ..]
      rw [hpk, replaceAll_skip ps _ _ hA, replaceAll_here,
        replaceAll_skip ps _ _ hqU, hsubst]
      simp [List.append_assoc]
    rw [hrepl]
    have hndel := underscore_not_mem_delimStr d
    have hnstrip : '_' ∉ pyStrip c := fun hmm => hcU (mem_pyStrip_imp hmm)
    have hA' : '_' ∉ A ++ (delimStr d ++ pyStrip c ++ delimStr d) ++ q := by
      intro hm
      simp only [List.mem_append] at hm
      tauto
    have hfin := ih (k + 1) (A ++ (delimStr d ++ pyStrip c ++ delimStr d) ++ q) hA' hrest
      (by simp only [List.length_cons] at hb; omega)
    rw [hfin]
    show _ = A ++ (delimStr d ++ pyStrip c ++ delimStr d ++ q ++ stripItems rest)
    simp [List.append_assoc]

theorem stripItems_eq_renderItems :
    ∀ (items : List (Delim × List Char × List Char)),
    (∀ it ∈ items, pyStrip it.2.1 = it.2.1) → stripItems items = renderItems items := by
  intro items
  induction items with
  | nil => intro _; rfl
  | cons it rest ih =>
    intro h
    obtain ⟨d, c, q⟩ := it
    show delimStr d ++ pyStrip c ++ delimStr d ++ q ++ stripItems rest = _
    rw [show pyStrip c = c from h (d, c, q) (List.mem_cons_self _ _),
      ih (fun i2 hi2 => h i2 (List.mem_cons_of_mem _ hi2))]
    rfl

theorem stripItems_contains_span :
    ∀ (items : List (Delim × List Char × List Char)) (A : List Char)
      (it : Delim × List Char × List Char), it ∈ items →
    ∃ x y, A ++ stripItems items
      = x ++ (delimStr it.1 ++ pyStrip it.2.1 ++ delimStr it.1) ++ y := by
  intro items
  induction items with
  | nil => intro A it h; simp at h
  | cons hd rest ih =>
    intro A it h
    obtain ⟨d, c, q⟩ := hd
    rcases List.mem_cons.mp h with h | h
    · subst h
      refine ⟨A, q ++ stripItems rest, ?_⟩
      show A ++ (delimStr d ++ pyStrip c ++ delimStr d ++ q ++ stripItems rest) = _
      simp [List.append_assoc]
    · obtain ⟨x, y, hxy⟩ := ih (A ++ (delimStr d ++ pyStrip c ++ delimStr d ++ q)) it h
      refine ⟨x, y, ?_⟩
      rw [← hxy]
      show A ++ (delimStr d ++ pyStrip c ++ delimStr d ++ q ++ stripItems rest) = _
      simp [List.append_assoc]

/-- Master lemma for lines carrying up to ten literal spans: on a line made
of clean plain text and well-formed spans (contents free of the span's own
closing character and of `_`; tick spans nonempty) with no flag match
outside the spans, `parse_args` extracts no options and returns the line
with each span's content stripped. -/
theorem parse_args_spans_general (p0 : List Char)
    (items : List (Delim × List Char × List Char))
    (hp0 : ∀ x ∈ p0, x ≠ tickChar ∧ x ≠ '"' ∧ x ≠ '_')
    (hitems : ∀ it ∈ items, keyChar it.1 ∉ it.2.1 ∧ '_' ∉ it.2.1
      ∧ (∀ x ∈ it.2.2, x ≠ tickChar ∧ x ≠ '"' ∧ x ≠ '_')
      ∧ (it.1 = Delim.tick → it.2.1 ≠ []))
    (hcount : items.length ≤ 10)
    (hflag : (flagScan (p0 ++ substItems 0 items)).1 = []) :
    parse_args (renderLine p0 items) = (p0 ++ stripItems items, []) := by
  have hp0w : ∀ x ∈ p0, x ≠ tickChar ∧ x ≠ '"' :=
    fun x hx => ⟨(hp0 x hx).1, (hp0 x hx).2.1⟩
  have hitems2 : ∀ it ∈ items, keyChar it.1 ∉ it.2.1
      ∧ (∀ x ∈ it.2.2, x ≠ tickChar ∧ x ≠ '"')
      ∧ (it.1 = Delim.tick → it.2.1 ≠ []) := by
    intro it hit
    obtain ⟨h1, _, h3, h4⟩ := hitems it hit
    exact ⟨h1, fun x hx => ⟨(h3 x hx).1, (h3 x hx).2.1⟩, h4⟩
  have hscan := scan_line p0 items hp0w hitems2
  have hp0U : '_' ∉ p0 := fun hm => (hp0 _ hm).2.2 rfl
  simp only [parse_args, hscan, hflag, ite_true, eq_self_iff_true, List.foldl_nil]
  rw [restore_items items 0 p0 hp0U
    (fun it hit => ⟨(hitems it hit).2.1, fun hm => ((hitems it hit).2.2.1 _ hm).2.2 rfl⟩)
    (by omega)]

/-! ### Soundness of the flag scan

Every key the flag scan extracts occurs in the scanned text as a literal
substring preceded by a double dash; contrapositively, a flag name the
placeholder text never mentions cannot reach the option map, whatever other
flags the line carries. -/

theorem hasSub_of_eq_append {p : List Char} :
    ∀ (x : List Char) {s y : List Char}, s = x ++ p ++ y → hasSub p s = true := by
  intro x
  induction x with
  | nil =>
    intro s y h
    subst h
    simp only [List.nil_append]
    cases p with
    | nil =>
      cases y with
      | nil => rfl
      | cons c cs => simp [hasSub, swL]
    | cons q ps =>
      have hsw : swL (q :: ps) ((q :: ps) ++ y) = true := swL_append _ _
      show (swL (q :: ps) (q :: (ps ++ y)) || hasSub (q :: ps) (ps ++ y)) = true
      rw [show q :: (ps ++ y) = (q :: ps) ++ y from rfl, hsw, Bool.true_or]
  | cons c x ih =>
    intro s y h
    subst h
    have hx : hasSub p (x ++ p ++ y) = true := ih rfl
    show (swL p (c :: (x ++ p ++ y)) || hasSub p (x ++ p ++ y)) = true
    rw [hx, Bool.or_true]

theorem flagValuePart_suffix {s1 : List Char} {ov : Option (List Char)}
    {rest : List Char} (h : flagValuePart s1 = (ov, rest)) :
    ∃ pre, s1 = pre ++ rest := by
  match s1 with
  | [] =>
    simp only [flagValuePart, Prod.mk.injEq] at h
    exact ⟨[], by rw [← h.2, List.nil_append]⟩
  | c0 :: s2 =>
    simp only [flagValuePart] at h
    by_cases hc : c0 = '='
    · rw [if_pos hc] at h
      cases hv : takeWhile1 (fun c => !(pySpace c)) s2 with
      | some vr =>
        obtain ⟨v, s3⟩ := vr
        rw [hv] at h
        simp only [Prod.mk.injEq] at h
        refine ⟨c0 :: v, ?_⟩
        rw [← h.2, (takeWhile1_spec hv).2, List.cons_append]
      | none =>
        rw [hv] at h
        simp only [Prod.mk.injEq] at h
        exact ⟨[], by rw [← h.2, List.nil_append]⟩
    · rw [if_neg hc] at h
      cases hw : takeWhile1 pySpace (c0 :: s2) with
      | some wr =>
        obtain ⟨w, s2w⟩ := wr
        rw [hw] at h
        dsimp only at h
        cases hv : takeWhile1 (fun c => !(pySpace c)) s2w with
        | some vr =>
          obtain ⟨v, s3⟩ := vr
          rw [hv] at h
          simp only [Prod.mk.injEq] at h
          refine ⟨w ++ v, ?_⟩
          rw [← h.2, (takeWhile1_spec hw).2, (takeWhile1_spec hv).2,
            List.append_assoc]
        | none =>
          rw [hv] at h
          simp only [Prod.mk.injEq] at h
          exact ⟨[], by rw [← h.2, List.nil_append]⟩
      | none =>
        rw [hw] at h
        simp only [Prod.mk.injEq] at h
        exact ⟨[], by rw [← h.2, List.nil_append]⟩

theorem flagMatchAt_decomp {s : List Char} {k v rest : List Char}
    (h : flagMatchAt s = some ((k, v), rest)) :
    (∃ t, s = '-' :: '-' :: (k ++ t)) ∧ ∃ pre, s = pre ++ rest := by
  match s with
  | [] => simp [flagMatchAt] at h
  | [c] => simp [flagMatchAt] at h
  | c1 :: c2 :: s =>
    simp only [flagMatchAt] at h
    by_cases hdd : c1 = '-' ∧ c2 = '-'
    · rw [if_pos hdd] at h
      obtain ⟨hd1, hd2⟩ := hdd
      subst hd1
      subst hd2
      cases hwn : takeWhile1 isWordChar s with
      | none => rw [hwn] at h; exact absurd h (by simp)
      | some nr =>
        obtain ⟨name, s1⟩ := nr
        rw [hwn] at h
        dsimp only at h
        have hs : s = name ++ s1 := (takeWhile1_spec hwn).2
        cases hv : flagValuePart s1 with
        | mk ov r =>
          rw [hv] at h
          obtain ⟨pre1, hpre1⟩ := flagValuePart_suffix hv
          cases ov <;>
          · simp only [Option.some.injEq, Prod.mk.injEq] at h
            obtain ⟨⟨hk, -⟩, hr⟩ := h
            subst hk
            subst hr
            refine ⟨⟨s1, by rw [hs]⟩, '-' :: '-' :: (name ++ pre1), ?_⟩
            rw [hs, hpre1]
            simp [List.append_assoc]
    · rw [if_neg hdd] at h
      exact absurd h (by simp)

theorem flagScan_key_occurs : ∀ (n : Nat) (s : List Char), s.length ≤ n →
    ∀ {k v : List Char}, (k, v) ∈ (flagScan s).1 →
    ∃ x y, s = x ++ ('-' :: '-' :: k) ++ y := by
  intro n
  induction n with
  | zero =>
    intro s hs k v hm
    have hnil : s = [] := List.length_eq_zero.mp (Nat.le_zero.mp hs)
    subst hnil
    simp [flagScan_nil] at hm
  | succ n ih =>
    intro s hs k v hm
    cases s with
    | nil => simp [flagScan_nil] at hm
    | cons c cs =>
      rw [flagScan_cons] at hm
      cases hmt : flagMatchAt (c :: cs) with
      | some out =>
        obtain ⟨⟨k0, v0⟩, rest⟩ := out
        rw [hmt] at hm
        dsimp only at hm
        rw [List.mem_cons] at hm
        cases hm with
        | inl heq =>
          injection heq with hk hv
          subst hk
          obtain ⟨t, ht⟩ := (flagMatchAt_decomp hmt).1
          exact ⟨[], t, by rw [ht]; simp⟩
        | inr hmem =>
          have hlen : rest.length + 3 ≤ (c :: cs).length := flagMatchAt_length hmt
          simp only [List.length_cons] at hlen hs
          obtain ⟨x, y, hxy⟩ := ih rest (by omega) hmem
          obtain ⟨pre, hpre⟩ := (flagMatchAt_decomp hmt).2
          refine ⟨pre ++ x, y, ?_⟩
          rw [hpre, hxy]
          simp [List.append_assoc]
      | none =>
        rw [hmt] at hm
        dsimp only at hm
        have hs2 : cs.length ≤ n := by
          simp only [List.length_cons] at hs
          omega
        obtain ⟨x, y, hxy⟩ := ih cs hs2 hm
        refine ⟨c :: x, y, ?_⟩
        rw [hxy]
        simp

theorem flagScan_key_hasSub {s k v : List Char}
    (hm : (k, v) ∈ (flagScan s).1) :
    hasSub ('-' :: '-' :: k) s = true := by
  obtain ⟨x, y, hxy⟩ := flagScan_key_occurs s.length s (Nat.le_refl _) hm
  exact hasSub_of_eq_append x hxy

theorem setArg_mem {m : List (List Char × List Char)} {k v : List Char}
    {q : List Char × List Char} (h : q ∈ setArg m k v) :
    q ∈ m ∨ q.1 = k := by
  unfold setArg at h
  split at h
  · rw [List.mem_map] at h
    obtain ⟨p, hp, hfp⟩ := h
    split at hfp
    · right
      rw [← hfp]
    · left
      rw [← hfp]
      exact hp
  · rw [List.mem_append] at h
    cases h with
    | inl h1 => exact Or.inl h1
    | inr h1 =>
      right
      simp only [List.mem_singleton] at h1
      rw [h1]

theorem foldl_setArg_mem :
    ∀ (ms : List (List Char × List Char)) (m0 : List (List Char × List Char))
    {q : List Char × List Char},
    q ∈ ms.foldl (fun m kv => setArg m kv.1 (pyStripChars quoteChars kv.2)) m0 →
    q ∈ m0 ∨ ∃ kv ∈ ms, q.1 = kv.1 := by
  intro ms
  induction ms with
  | nil =>
    intro m0 q h
    exact Or.inl h
  | cons kv0 ms ih =>
    intro m0 q h
    rw [List.foldl_cons] at h
    cases ih _ h with
    | inl h1 =>
      cases setArg_mem h1 with
      | inl h2 => exact Or.inl h2
      | inr h2 => exact Or.inr ⟨kv0, List.mem_cons_self _ _, h2⟩
    | inr h1 =>
      obtain ⟨kv, hkv, hq⟩ := h1
      exact Or.inr ⟨kv, List.mem_cons_of_mem _ hkv, hq⟩

theorem lookupArg_some_mem {m : List (List Char × List Char)} {k v : List Char}
    (h : lookupArg m k = some v) : ∃ q ∈ m, q.1 = k := by
  unfold lookupArg at h
  rw [Option.map_eq_some'] at h
  obtain ⟨q, hq, -⟩ := h
  refine ⟨q, List.mem_of_find?_eq_some hq, ?_⟩
  have hb := List.find?_some hq
  simp only [beq_iff_eq] at hb
  exact hb

/-! ### Claim theorems -/

/-- C1 (counterexample): a chunk carrying usage totals for a model with no
pricing tier produces NO usage event at all — the claim's "the Usage event
is still emitted with its pricing field omitted" is false; the
walrus-guarded conjunction on line 55 of `openai.py` suppresses
the event. -/
theorem C1_counterexample :
    (⟨[], some ⟨3, 4, 7⟩, none⟩ : Chunk).usage.isSome = true
    ∧ gpt_pricing ("mystery-model".data) = none
    ∧ completeStream ("mystery-model".data) [⟨[], some ⟨3, 4, 7⟩, none⟩] = [] :=
  ⟨rfl, rfl, rfl⟩

/-- C1 (amended): for every chunk carrying usage totals, `complete` emits
exactly one Usage event if and only if `gpt_pricing` resolves a tier for
the requested model (the event then carries that tier); when no tier
matches, no Usage event is emitted for that chunk. -/
theorem C1_usage_requires_tier : ∀ (model : List Char) (c : Chunk),
    ((chunkEvents model c).countP isUsage =
      if c.usage.isSome && (gpt_pricing model).isSome then 1 else 0)
    ∧ (∀ u p, c.usage = some u → gpt_pricing model = some p →
        CompletionEvent.usage u.prompt_tokens u.completion_tokens u.total_tokens p
          ∈ chunkEvents model c) := by
  intro model c
  constructor
  · unfold chunkEvents
    rw [List.countP_append, List.countP_append, contentEvents_countP_usage,
      citationEvents_countP_usage]
    cases hu : c.usage with
    | none => rw [usageEvents_of_none model hu]; simp
    | some u =>
      cases hp : gpt_pricing model with
      | none => rw [usageEvents_of_no_pricing c hp]; simp
      | some p =>
        rw [usageEvents_of_some hu hp]
        simp [List.countP_cons, isUsage]
  · intro u p hu hp
    unfold chunkEvents
    rw [usageEvents_of_some hu hp]
    simp

/-- C1 witness: for model `gpt-4o` (tier resolved) the usage event carrying
the resolved tier is emitted. -/
theorem C1_usage_requires_tier_witness :
    CompletionEvent.usage 3 4 7 MODEL_PRICING_gpt4_o_2024_08_06
      ∈ chunkEvents ("gpt-4o".data) ⟨[], some ⟨3, 4, 7⟩, none⟩ :=
  (C1_usage_requires_tier ("gpt-4o".data) _).2 ⟨3, 4, 7⟩ _ rfl rfl

/-- C2 (counterexample): on a terminal chunk carrying both usage totals and
citation data, the Usage event is yielded BEFORE the extra citation
TokenDelta (the usage `yield` precedes the citation `yield` in the loop
body), refuting "a Usage event occurs after every TokenDelta ... in
particular after the extra citation TokenDelta". -/
theorem C2_counterexample :
    ((completeStream ("gpt-4".data)
        [⟨[⟨some "stop".data, none⟩], some ⟨1, 2, 3⟩, some ["http-example".data]⟩]).map
      isUsage = [true, false])
    ∧ ((completeStream ("gpt-4".data)
        [⟨[⟨some "stop".data, none⟩], some ⟨1, 2, 3⟩, some ["http-example".data]⟩]).map
      isDelta = [false, true])
    ∧ ¬ usageLast (completeStream ("gpt-4".data)
        [⟨[⟨some "stop".data, none⟩], some ⟨1, 2, 3⟩, some ["http-example".data]⟩]) := by
  refine ⟨by decide, by decide, ?_⟩
  intro h
  have hlist : completeStream ("gpt-4".data)
      [⟨[⟨some "stop".data, none⟩], some ⟨1, 2, 3⟩, some ["http-example".data]⟩]
      = [CompletionEvent.usage 1 2 3 MODEL_PRICING_gpt4_standard,
        CompletionEvent.messageDelta (citationsText ["http-example".data])] := rfl
  unfold usageLast at h
  rw [hlist] at h
  have h1 := (List.pairwise_cons.mp h).1 _ (List.mem_cons_self _ _) rfl
  simp [isDelta] at h1

/-- C2 (amended): the Usage event follows every TokenDelta provided the
usage totals arrive on the final chunk and that chunk yields no citation
delta; when the usage-carrying terminal chunk also carries citation data,
the extra citation TokenDelta is emitted after the Usage event. -/
theorem C2_usage_order : ∀ (model : List Char) (chunks : List Chunk) (clast : Chunk),
    (∀ ch ∈ chunks, ch.usage = none) → citationEvents clast = [] →
    usageLast (completeStream model (chunks ++ [clast])) := by
  intro model chunks clast hu hcit
  unfold completeStream
  rw [List.flatMap_append]
  unfold usageLast
  rw [List.pairwise_append]
  refine ⟨?_, ?_, ?_⟩
  · apply usageLast_of_no_usage
    intro e he
    rw [List.mem_flatMap] at he
    obtain ⟨ch, hch, he⟩ := he
    exact chunkEvents_not_usage_of_none (hu ch hch) he
  · have h2 := usageLast_chunk model clast hcit
    unfold usageLast at h2
    simpa using h2
  · intro a ha b _ hu2
    rw [List.mem_flatMap] at ha
    obtain ⟨ch, hch, ha⟩ := ha
    rw [chunkEvents_not_usage_of_none (hu ch hch) ha] at hu2
    exact absurd hu2 (by simp)

/-- C2 witness: a content chunk followed by a bare usage chunk yields a
sequence in which no TokenDelta follows the Usage event. -/
theorem C2_usage_order_witness :
    usageLast (completeStream ("gpt-4".data)
      ([⟨[⟨none, some "hi".data⟩], none, none⟩] ++ [⟨[], some ⟨1, 1, 2⟩, none⟩])) :=
  C2_usage_order _ _ _ (by decide) (by decide)

/-- C3 (counterexample): restoration re-wraps the span with STRIPPED content
(`part.strip()`), so a span whose content carries edge whitespace does not
round-trip byte-for-byte. -/
theorem C3_counterexample :
    (parse_args ("` a `".data)).1 = "`a`".data
    ∧ "`a`".data ≠ "` a `".data :=
  ⟨by decide, by decide⟩

/-- C3 (amended): for every line made of well-formed same-kind delimiter
spans (up to ten) separated by clean plain text, with no flag match outside
the spans, `parse_args` is an exact round-trip and extracts no options,
provided each span's content carries no leading/trailing whitespace
(`pyStrip` fixes it); the counterexample shows the claim fails without that
proviso. -/
theorem C3_round_trip (p0 : List Char)
    (items : List (Delim × List Char × List Char))
    (hp0 : ∀ x ∈ p0, x ≠ tickChar ∧ x ≠ '"' ∧ x ≠ '_')
    (hitems : ∀ it ∈ items, keyChar it.1 ∉ it.2.1 ∧ '_' ∉ it.2.1
      ∧ (∀ x ∈ it.2.2, x ≠ tickChar ∧ x ≠ '"' ∧ x ≠ '_')
      ∧ (it.1 = Delim.tick → it.2.1 ≠ []))
    (hcount : items.length ≤ 10)
    (hflag : (flagScan (p0 ++ substItems 0 items)).1 = [])
    (htrim : ∀ it ∈ items, pyStrip it.2.1 = it.2.1) :
    parse_args (renderLine p0 items) = (renderLine p0 items, []) := by
  rw [parse_args_spans_general p0 items hp0 hitems hcount hflag,
    stripItems_eq_renderItems items htrim]
  rfl

/-- C3 witness: a line with a fenced span and a backtick span, both
containing flag-like text, round-trips exactly. -/
theorem C3_round_trip_witness :
    parse_args (renderLine ("ask ".data)
        [(Delim.fence, "--temperature 0.5".data, " and ".data),
          (Delim.tick, "run --fast".data, " thanks".data)])
      = (renderLine ("ask ".data)
        [(Delim.fence, "--temperature 0.5".data, " and ".data),
          (Delim.tick, "run --fast".data, " thanks".data)], []) :=
  C3_round_trip _ _ (by decide) (by decide) (by decide) (by decide) (by decide)

/-- C4 (counterexample): in `--a `+backtick+`--temp 0.5`+backtick the flag
`--temp` occurs only inside a well-formed backtick span, yet the returned
text is empty and does not contain the span: the outside flag `--a`
captures the span placeholder as its greedy `\S+` value, `re.sub` removes
the whole match, and restoration finds no placeholder left to replace.
The option map still lacks `temp` (it maps `a` to the placeholder text),
but the span-preservation conjunct of the original claim fails. -/
theorem C4_counterexample :
    parse_args ("--a `--temp 0.5`".data)
      = ([], [("a".data, "__EXTRACTED_PART_0__".data)])
    ∧ hasSub ("`--temp 0.5`".data)
        (parse_args ("--a `--temp 0.5`".data)).1 = false :=
  ⟨by decide, by decide⟩

/-- C4 (amended): on a line of well-formed spans, a flag name whose `--name`
token occurs nowhere in the placeholder-substituted text — in particular one
that appears only inside the spans — is absent from the option map, whatever
other flags the line carries outside the spans; and when no flag matches
outside the spans at all, the returned text additionally contains each span
byte-for-byte modulo one leading/trailing trim of its content.  (Without
that restriction the preservation part fails: an outside flag directly
before a span swallows the span placeholder as its `\S+` value and the span
is dropped from the text.) -/
theorem C4_flags_in_spans (p0 : List Char)
    (items : List (Delim × List Char × List Char))
    (hp0 : ∀ x ∈ p0, x ≠ tickChar ∧ x ≠ '"' ∧ x ≠ '_')
    (hitems : ∀ it ∈ items, keyChar it.1 ∉ it.2.1 ∧ '_' ∉ it.2.1
      ∧ (∀ x ∈ it.2.2, x ≠ tickChar ∧ x ≠ '"' ∧ x ≠ '_')
      ∧ (it.1 = Delim.tick → it.2.1 ≠ []))
    (hcount : items.length ≤ 10) :
    (∀ name, hasSub ('-' :: '-' :: name) (p0 ++ substItems 0 items) = false →
      lookupArg (parse_args (renderLine p0 items)).2 name = none)
    ∧ ((flagScan (p0 ++ substItems 0 items)).1 = [] →
      ∀ it ∈ items, ∃ x y, (parse_args (renderLine p0 items)).1
        = x ++ (delimStr it.1 ++ pyStrip it.2.1 ++ delimStr it.1) ++ y) := by
  have hp0w : ∀ x ∈ p0, x ≠ tickChar ∧ x ≠ '"' :=
    fun x hx => ⟨(hp0 x hx).1, (hp0 x hx).2.1⟩
  have hitems2 : ∀ it ∈ items, keyChar it.1 ∉ it.2.1
      ∧ (∀ x ∈ it.2.2, x ≠ tickChar ∧ x ≠ '"')
      ∧ (it.1 = Delim.tick → it.2.1 ≠ []) := by
    intro it hit
    obtain ⟨h1, _, h3, h4⟩ := hitems it hit
    exact ⟨h1, fun x hx => ⟨(h3 x hx).1, (h3 x hx).2.1⟩, h4⟩
  have hscan := scan_line p0 items hp0w hitems2
  constructor
  · intro name hno
    have hargs : (parse_args (renderLine p0 items)).2
        = ((flagScan (p0 ++ substItems 0 items)).1).foldl
            (fun m kv => setArg m kv.1 (pyStripChars quoteChars kv.2)) [] := by
      simp only [parse_args, hscan]
    cases hlk : lookupArg (parse_args (renderLine p0 items)).2 name with
    | none => rfl
    | some v =>
      exfalso
      rw [hargs] at hlk
      obtain ⟨q, hq, hq1⟩ := lookupArg_some_mem hlk
      cases foldl_setArg_mem _ _ hq with
      | inl h0 => simp at h0
      | inr h0 =>
        obtain ⟨kv, hkv, hqk⟩ := h0
        have hocc : hasSub ('-' :: '-' :: kv.1) (p0 ++ substItems 0 items)
            = true := flagScan_key_hasSub hkv
        have hkn : kv.1 = name := by rw [← hqk, hq1]
        rw [hkn, hno] at hocc
        exact Bool.false_ne_true hocc
  · intro hflag it hit
    rw [parse_args_spans_general p0 items hp0 hitems hcount hflag]
    exact stripItems_contains_span items p0 it hit

/-- C4 witness: on the counterexample line itself — `--a` outside,
`--temp 0.5` inside a backtick span — the option map still has no key
`temp`. -/
theorem C4_flags_in_spans_witness :
    lookupArg (parse_args (renderLine ("--a ".data)
      [(Delim.tick, "--temp 0.5".data, [])])).2 ("temp".data) = none :=
  (C4_flags_in_spans _ _ (by decide) (by decide) (by decide)).1
    ("temp".data) (by decide)

/-- C5 (confirmed): a provider `BadRequestError` maps to the BadRequest-kind
error and any other `APIError` to the CompletionError kind, both with the
message text unchanged; events already yielded before the exception stand,
and nothing after the exception is yielded (items past it are never
consumed). -/
theorem C5_error_mapping : ∀ (model : List Char) (chunks : List Chunk)
    (e : OpenAIExc) (rest : List (Chunk ⊕ OpenAIExc)),
    runStream model (chunks.map Sum.inl ++ Sum.inr e :: rest)
      = (completeStream model chunks, some (mapExc e))
    ∧ gptErrorMessage (mapExc e) = excMessage e
    ∧ (∀ m, mapExc (.badRequestError m) = .badRequest m)
    ∧ (∀ m, mapExc (.apiError m) = .completionError m) := by
  intro model chunks e rest
  refine ⟨?_, ?_, fun _ => rfl, fun _ => rfl⟩
  · induction chunks with
    | nil => rfl
    | cons c cs ih =>
      show runStream model (Sum.inl c :: (cs.map Sum.inl ++ Sum.inr e :: rest)) = _
      simp only [runStream, ih]
      simp [completeStream, List.flatMap_cons]
  · cases e <;> rfl

/-- C6 (confirmed): ordered first-match, specific-before-general pricing:
every id beginning `gpt-4o-2024-05-13` resolves to the dated tier (distinct
from the generic `gpt-4o` tier), every id beginning `gpt-3.5-turbo-16k`
resolves to the 16k tier (distinct from the standard tier), and an id
matching no pattern resolves to `none`. -/
theorem C6_pricing_resolution :
    (∀ rest : List Char, gpt_pricing ("gpt-4o-2024-05-13".data ++ rest)
      = some MODEL_PRICING_gpt4_o_2024_05_13)
    ∧ MODEL_PRICING_gpt4_o_2024_05_13 ≠ MODEL_PRICING_gpt4_o_2024_08_06
    ∧ (∀ rest : List Char, gpt_pricing ("gpt-3.5-turbo-16k".data ++ rest)
      = some MODEL_PRICING_gpt35_16k)
    ∧ MODEL_PRICING_gpt35_16k ≠ MODEL_PRICING_gpt35_standard
    ∧ (∀ m : List Char,
        sw "gpt-3.5-turbo-16k" m = false → sw "gpt-3.5-turbo" m = false →
        sw "gpt-4-32k" m = false → sw "gpt-4o-mini" m = false →
        sw "gpt-4o-2024-05-13" m = false → sw "chatgpt-4o-latest" m = false →
        sw "gpt-4o" m = false → sw "gpt-4-turbo" m = false →
        gpt4DatePreviewMatch m = false → sw "gpt-4" m = false →
        sw "o1-preview" m = false → sw "o1-mini" m = false →
        gpt_pricing m = none) := by
  refine ⟨fun _ => rfl, ?_, fun _ => rfl, ?_, ?_⟩
  · intro h
    have h2 := congrArg Pricing.prompt h
    norm_num [ MODEL_PRICING_gpt4_o_2024_05_13, MODEL_PRICING_gpt4_o_2024_08_06] at h2
  · intro h
    have h2 := congrArg Pricing.prompt h
    norm_num [ MODEL_PRICING_gpt35_16k, MODEL_PRICING_gpt35_standard] at h2
  · intro m h1 h2 h3 h4 h5 h6 h7 h8 h9 h10 h11 h12
    simp only [gpt_pricing, h1, h2, h3, h4, h5, h6, h7, h8, h9, h10, h11, h12,
      Bool.or_self, Bool.false_eq_true, if_false]

/-- C6 witness: dated and 16k snapshot ids resolve to the specific tiers;
an unknown id resolves to none. -/
theorem C6_pricing_resolution_witness :
    gpt_pricing ("gpt-4o-2024-05-13".data ++ "-extra".data)
      = some MODEL_PRICING_gpt4_o_2024_05_13
    ∧ gpt_pricing ("gpt-3.5-turbo-16k".data ++ "-0613".data)
      = some MODEL_PRICING_gpt35_16k
    ∧ gpt_pricing ("claude-3-opus".data) = none :=
  ⟨C6_pricing_resolution.1 _, C6_pricing_resolution.2.2.1 _,
    C6_pricing_resolution.2.2.2.2 _ (by decide) (by decide) (by decide) (by decide)
      (by decide) (by decide) (by decide) (by decide) (by decide) (by decide)
      (by decide) (by decide)⟩

/-- C7 (confirmed): with markdown enabled, the rendering pass hands the
markdown constructor the live text with a synthetic closing fence appended
exactly when the fence count is odd, and leaves the printer state (hence
`current_text`) unchanged. -/
theorem C7_synthetic_fence : ∀ (ctorOk : List Char → Bool) (st : PrinterState)
    (text : List Char), st.markdown = true →
    (render_partial_markdown ctorOk st text).1 = st
    ∧ (render_partial_markdown ctorOk st text).2.1 = some (fencedView text)
    ∧ (countFences text % 2 = 1 → fencedView text = text ++ syntheticFence)
    ∧ (¬ countFences text % 2 = 1 → fencedView text = text) := by
  intro ctorOk st text hmd
  have hne : ¬ st.markdown = false := by rw [hmd]; simp
  refine ⟨?_, ?_, fun ho => if_pos ho, fun he => if_neg he⟩
  · unfold render_partial_markdown
    rw [if_neg hne]
    dsimp only
    split <;> rfl
  · unfold render_partial_markdown
    rw [if_neg hne]
    dsimp only
    split <;> rfl

/-- C7 witness: one unterminated fence in the live text. -/
theorem C7_synthetic_fence_witness :
    (render_partial_markdown (fun _ => true) ⟨true, "prev".data, false⟩
        ("```code".data)).1 = ⟨true, "prev".data, false⟩
    ∧ (render_partial_markdown (fun _ => true) ⟨true, "prev".data, false⟩
        ("```code".data)).2.1 = some (fencedView ("```code".data))
    ∧ (countFences ("```code".data) % 2 = 1 →
        fencedView ("```code".data) = "```code".data ++ syntheticFence)
    ∧ (¬ countFences ("```code".data) % 2 = 1 →
        fencedView ("```code".data) = "```code".data) :=
  C7_synthetic_fence _ _ _ rfl

/-- C8 (confirmed): the rendering pass is total, and whenever the markdown
constructor fails on the fence-adjusted text, the result falls back to the
ORIGINAL text rendered as plain text (without the synthetic fence). -/
theorem C8_render_fallback : ∀ (ctorOk : List Char → Bool) (st : PrinterState)
    (text : List Char), ctorOk (fencedView text) = false →
    (render_partial_markdown ctorOk st text).2.2 = Renderable.plainText text := by
  intro ctorOk st text hf
  unfold render_partial_markdown
  by_cases hm : st.markdown = false
  · rw [if_pos hm]
  · rw [if_neg hm]
    dsimp only
    rw [hf]
    simp

/-- C8 witness: an always-failing constructor yields the plain-text
fallback. -/
theorem C8_render_fallback_witness :
    (render_partial_markdown (fun _ => false) ⟨true, [], true⟩
        ("```oops".data)).2.2 = Renderable.plainText ("```oops".data) :=
  C8_render_fallback _ _ _ rfl

/-- C9 (confirmed): for a model id beginning `oai-compat:`, the outbound
API call uses the stripped id while pricing is resolved on the original id;
the original id matches no pricing pattern, so no Usage event is ever
yielded, whatever the chunks carry. -/
theorem C9_oai_compat_pricing : ∀ (rest : List Char) (chunks : List Chunk),
    (complete ("oai-compat:".data ++ rest) chunks).1 = rest
    ∧ gpt_pricing ("oai-compat:".data ++ rest) = none
    ∧ (∀ e ∈ (complete ("oai-compat:".data ++ rest) chunks).2, isUsage e = false) := by
  intro rest chunks
  refine ⟨?_, rfl, ?_⟩
  · show stripOaiCompat ("oai-compat:".data ++ rest) = rest
    unfold stripOaiCompat
    have hsw : sw "oai-compat:" ("oai-compat:".data ++ rest) = true := swL_append _ _
    rw [hsw]
    simp only [if_true]
    rw [show ("oai-compat:".length) = ("oai-compat:".data).length from rfl,
      List.drop_left]
  · intro e he
    have hmem : e ∈ completeStream ("oai-compat:".data ++ rest) chunks := he
    unfold completeStream at hmem
    rw [List.mem_flatMap] at hmem
    obtain ⟨ch, _, hmem⟩ := hmem
    exact chunkEvents_not_usage_of_no_pricing
      (show gpt_pricing ("oai-compat:".data ++ rest) = none from rfl) hmem

/-- C10 (confirmed): a flag without `=` takes the next whitespace-separated
token as its value even when that token is itself a flag — `--a --b`
yields the map `a ↦ --b` with no key `b` and empty instruction — and the
separator may be any whitespace run. -/
theorem C10_flag_eats_flag :
    parse_args ("--a --b".data) = ([], [("a".data, "--b".data)])
    ∧ lookupArg (parse_args ("--a --b".data)).2 ("b".data) = none
    ∧ lookupArg (parse_args ("--a --b".data)).2 ("a".data) = some ("--b".data)
    ∧ parse_args ("--a \t --b".data) = ([], [("a".data, "--b".data)]) :=
  ⟨by decide, by decide, by decide, by decide⟩

end GptCli
